import Mathlib

set_option maxHeartbeats 1000000
set_option maxRecDepth 8000

/-!
Verification of the sebs-unblocker rewriting proxy core against its
specification.  The JavaScript source (src/proxy/*.js, src/unnamed/part_*)
is shallowly embedded: each JS function is translated into an executable
Lean definition (state passing made explicit, `Date.now()` passed as an
argument, fallible operations returning `Option`), and the specified
properties are proved about those definitions.
-/

namespace Unblocker

/-! ## Value model for the resource cache (resourceCache.js)

Cache values are JS strings, or — after a round trip through the disk
store — the persisted record object written by `persistToDisk`:
`persistToDisk(key, { value, meta: { ttl: ttlMs, storedAt: now() } })`. -/

inductive CacheVal where
  | vstr (s : String) : CacheVal
  | record (value : CacheVal) (ttl storedAt : Nat) : CacheVal
deriving DecidableEq, Repr

/-- Left curly brace character, used when building JSON text. -/
def lcurly : Char := Char.ofNat 123

/-- Right curly brace character, used when building JSON text. -/
def rcurly : Char := Char.ofNat 125

/-- Lower-case hexadecimal digit, as emitted by JSON.stringify escapes. -/
def hexDigitLower (n : Nat) : Char :=
  if n < 10 then Char.ofNat (48 + n) else Char.ofNat (97 + (n - 10))

/-- JSON string escaping of one character (V8 JSON.stringify behaviour). -/
def jsonEscapeChar (c : Char) : String :=
  if c = '"' then "\\\""
  else if c = '\\' then "\\\\"
  else if c = '\n' then "\\n"
  else if c = '\r' then "\\r"
  else if c = '\t' then "\\t"
  else if c.toNat < 32 then
    "\\u00" ++ String.mk [hexDigitLower (c.toNat / 16), hexDigitLower (c.toNat % 16)]
  else String.singleton c

/-- `JSON.stringify` on a cache value (property order follows object
creation order in the source: value, meta; ttl, storedAt). -/
def jsonStringify : CacheVal → String
  | .vstr s => "\"" ++ String.join (s.toList.map jsonEscapeChar) ++ "\""
  | .record v ttl storedAt =>
      String.singleton lcurly ++ "\"value\":" ++ jsonStringify v
        ++ ",\"meta\":" ++ String.singleton lcurly
        ++ "\"ttl\":" ++ toString ttl ++ ",\"storedAt\":" ++ toString storedAt
        ++ String.singleton rcurly ++ String.singleton rcurly

/-- JS truthiness of a cache value (empty string is falsy, objects truthy). -/
def jsTruthy : CacheVal → Bool
  | .vstr s => s ≠ ""
  | .record _ _ _ => true

namespace ResourceCache

/-- resourceCache.js `estimateSize`: `if (!obj) return 0`; byte length for
strings (Buffer.byteLength, i.e. UTF-8 bytes); serialized JSON length for
structured values. -/
def estimateSize (v : CacheVal) : Nat :=
  if jsTruthy v then
    match v with
    | .vstr s => s.utf8ByteSize
    | .record _ _ _ => (jsonStringify v).utf8ByteSize
  else 0

/-- One in-memory entry of `cacheMap`: `{ value, size, expiresAt }`.
`expiresAt` is `null` (`none`) when no TTL was given. -/
structure CEntry where
  value : CacheVal
  size : Nat
  expiresAt : Option Nat
deriving DecidableEq, Repr

/-- One persisted file `CACHE_DIR/shaKey(key).json` holding
`{ ts, key, data }`.  Files are keyed here by the logical key, modelling
the injective hash-derived filename. -/
structure DiskFile where
  ts : Nat
  key : String
  data : CacheVal
deriving DecidableEq, Repr

/-- The module state of resourceCache.js: the insertion-ordered in-memory
`Map` (head = least recently used), the `currentBytes` counter, and the
set of persisted files. -/
structure CacheState where
  cacheMap : List (String × CEntry)
  currentBytes : Int
  disk : List (String × DiskFile)
deriving DecidableEq, Repr

/-- JS `Map.has`. -/
def mapHas (m : List (String × CEntry)) (k : String) : Bool :=
  m.any (fun p => p.1 == k)

/-- JS `Map.get` (returns the unique entry for the key, if any). -/
def mapGet? (m : List (String × CEntry)) (k : String) : Option CEntry :=
  (m.find? (fun p => p.1 == k)).map Prod.snd

/-- JS `Map.delete`. -/
def mapDelete (m : List (String × CEntry)) (k : String) : List (String × CEntry) :=
  m.filter (fun p => p.1 != k)

/-- JS `Map.set`: update in place if present, else append at the
most-recently-used end. -/
def mapSet (m : List (String × CEntry)) (k : String) (e : CEntry) :
    List (String × CEntry) :=
  if mapHas m k then m.map (fun p => if p.1 == k then (k, e) else p)
  else m ++ [(k, e)]

/-- Disk-store write (overwrite the file for this key). -/
def diskSet (d : List (String × DiskFile)) (k : String) (f : DiskFile) :
    List (String × DiskFile) :=
  if d.any (fun p => p.1 == k) then d.map (fun p => if p.1 == k then (k, f) else p)
  else d ++ [(k, f)]

/-- resourceCache.js `removeFromDisk` (unlink, failures ignored). -/
def removeFromDisk (d : List (String × DiskFile)) (k : String) :
    List (String × DiskFile) :=
  d.filter (fun p => p.1 != k)

/-- resourceCache.js `loadFromDisk`: read the file, return `parsed.data`
when present and truthy, else null. -/
def loadFromDisk (d : List (String × DiskFile)) (k : String) : Option CacheVal :=
  match (d.find? (fun p => p.1 == k)).map Prod.snd with
  | some f => if jsTruthy f.data then some f.data else none
  | none => none

/-- resourceCache.js `touchKey`: move a present key to the
most-recently-used end. -/
def touchKey (m : List (String × CEntry)) (k : String) : List (String × CEntry) :=
  match mapGet? m k with
  | none => m
  | some e => mapSet (mapDelete m k) k e

/-- resourceCache.js `evictIfNeeded`: remove oldest (first) entries while
the item count exceeds `maxItems` or the byte counter exceeds `maxBytes`.
The JS call sites use the default arguments
(`DEFAULT_MAX_ITEMS = 500`, `DEFAULT_MAX_BYTES = 50 MiB`); the bounds are
kept explicit here exactly as in the JS parameter list. -/
def evictIfNeeded : List (String × CEntry) → Int → Nat → Nat →
    List (String × CEntry) × Int
  | [], bytes, _, _ => ([], bytes)
  | e :: rest, bytes, maxItems, maxBytes =>
    if (e :: rest).length > maxItems ∨ bytes > (maxBytes : Int) then
      evictIfNeeded rest (bytes - (e.2.size : Int)) maxItems maxBytes
    else (e :: rest, bytes)

def DEFAULT_MAX_ITEMS : Nat := 500
def DEFAULT_MAX_BYTES : Nat := 50 * 1024 * 1024
def MAX_PERSIST_BYTES : Nat := 1024 * 1024

/-- Truthiness test of `entry.expiresAt && entry.expiresAt < now`. -/
def entryExpired (e : CEntry) (now : Nat) : Bool :=
  match e.expiresAt with
  | some t => 0 < t ∧ t < now
  | none => false

/-- resourceCache.js `get(key)`: memory first (expiry check, touch on
hit), then disk (re-populate memory subject to eviction), else null.
Returns the JS return value together with the post state. -/
def get (st : CacheState) (key : String) (now : Nat) (maxItems maxBytes : Nat) :
    Option CacheVal × CacheState :=
  if key = "" then (none, st)
  else
    match mapGet? st.cacheMap key with
    | some entry =>
      if entryExpired entry now then
        (none, ⟨mapDelete st.cacheMap key,
                st.currentBytes - (entry.size : Int),
                removeFromDisk st.disk key⟩)
      else
        (some entry.value, ⟨touchKey st.cacheMap key, st.currentBytes, st.disk⟩)
    | none =>
      match loadFromDisk st.disk key with
      | some diskVal =>
        let size := estimateSize diskVal
        let m := mapSet st.cacheMap key ⟨diskVal, size, none⟩
        let mb := evictIfNeeded m (st.currentBytes + (size : Int)) maxItems maxBytes
        (some diskVal, ⟨mb.1, mb.2, st.disk⟩)
      | none => (none, st)

/-- resourceCache.js `set(key, value, ttlMs)`: synchronous memory write
(replacing any previous entry), eviction, then persistence of small
values as `{ value, meta: { ttl, storedAt } }`. -/
def set (st : CacheState) (key : String) (value : CacheVal) (ttlMs : Nat)
    (now : Nat) (maxItems maxBytes : Nat) : Bool × CacheState :=
  if key = "" then (false, st)
  else
    let size := estimateSize value
    let expiresAt : Option Nat := if ttlMs ≠ 0 then some (now + ttlMs) else none
    let mb0 : List (String × CEntry) × Int :=
      match mapGet? st.cacheMap key with
      | some prev => (mapDelete st.cacheMap key, st.currentBytes - (prev.size : Int))
      | none => (st.cacheMap, st.currentBytes)
    let m := mapSet mb0.1 key ⟨value, size, expiresAt⟩
    let mb := evictIfNeeded m (mb0.2 + (size : Int)) maxItems maxBytes
    let d :=
      if size ≤ MAX_PERSIST_BYTES then
        diskSet st.disk key ⟨now, key, CacheVal.record value ttlMs now⟩
      else st.disk
    (true, ⟨mb.1, mb.2, d⟩)

/-- resourceCache.js `del(key)`: remove from memory (adjusting the byte
counter) and from disk. -/
def del (st : CacheState) (key : String) : Bool × CacheState :=
  if key = "" then (false, st)
  else
    let mb : List (String × CEntry) × Int :=
      match mapGet? st.cacheMap key with
      | some e => (mapDelete st.cacheMap key, st.currentBytes - (e.size : Int))
      | none => (st.cacheMap, st.currentBytes)
    (true, ⟨mb.1, mb.2, removeFromDisk st.disk key⟩)

/-- resourceCache.js `clear()`: wipe memory and disk, reset the counter. -/
def clear (_st : CacheState) : CacheState := ⟨[], 0, []⟩

/-- One pass of the background sweep (the `setInterval` body): remove all
TTL-expired entries, then re-check the size constraints. -/
def sweep (st : CacheState) (now : Nat) (maxItems maxBytes : Nat) : CacheState :=
  let expired := st.cacheMap.filter (fun p => entryExpired p.2 now)
  let kept := st.cacheMap.filter (fun p => !(entryExpired p.2 now))
  let b := st.currentBytes - (expired.map (fun p => (p.2.size : Int))).sum
  let mb := evictIfNeeded kept b maxItems maxBytes
  ⟨mb.1, mb.2, st.disk⟩

/-- resourceCache.js `stats()`. -/
def stats (st : CacheState) : Nat × Int × Nat :=
  (st.cacheMap.length, st.currentBytes, st.disk.length)

/-! ### Accounting invariant and helper lemmas -/

/-- Sum of the recorded sizes of the in-memory entries. -/
def sumSizes (m : List (String × CEntry)) : Int :=
  (m.map (fun p => (p.2.size : Int))).sum

/-- Well-formedness: the byte counter equals the sum of recorded entry
sizes, and map keys are unique (the JS `Map` key invariant). -/
structure WF (st : CacheState) : Prop where
  bytes_eq : st.currentBytes = sumSizes st.cacheMap
  keys_nodup : (st.cacheMap.map Prod.fst).Nodup

end ResourceCache

/-! ## Fetch orchestrator (fetcher.js)

`fetchText` and `streamToResponse` are modelled by their retry loops
(fetcher.js lines 85-116 and 154-238), on a cache miss.  The upstream is
a function from the attempt number (1-based) to what that attempt
observes: a transient network error (timeout, connection reset — the
promise rejection caught by the `catch` block) or a response with a
status, headers and body. -/

namespace Fetcher

inductive Upstream where
  | netErr (msg : String) : Upstream
  | resp (status : Nat) (headers : List (String × String)) (body : String) :
      Upstream
deriving DecidableEq, Repr

inductive FetchErr where
  | httpErr (status : Nat) : FetchErr
  | netFail (msg : String) : FetchErr
deriving DecidableEq, Repr

inductive FetchResult where
  | ok (text : String) : FetchResult
  | fail (lastErr : Option FetchErr) : FetchResult
deriving DecidableEq, Repr

/-- Result of the fetchText loop: the outcome, how many attempts were
made, and the backoff sleeps performed (in ms, in order). -/
structure LoopOut where
  result : FetchResult
  attemptsMade : Nat
  sleeps : List Nat
deriving DecidableEq, Repr

def DEFAULT_RETRIES : Nat := 2
def BACKOFF_BASE : Nat := 300

/-- node-fetch `res.ok`: status in the 200..299 range. -/
def okStatus (s : Nat) : Bool := 200 ≤ s ∧ s ≤ 299

/-- fetcher.js `fetchText` retry loop (`while (attempt <= retries)`).
On a non-ok response: a 5xx with budget left sleeps and continues; any
other non-ok status is thrown — and that throw is caught by the
function's own `catch (err)` block, which records it as `lastErr`,
sleeps when budget remains, and lets the loop continue.  A rejected
fetch (timeout/reset) takes the same catch path.  After the loop,
`throw lastErr`. -/
def fetchTextLoop (upstream : Nat → Upstream) (retries : Nat) :
    Nat → Option FetchErr → List Nat → LoopOut
  | attempt, lastErr, sleeps =>
    if attempt ≤ retries then
      match upstream (attempt + 1) with
      | .resp status _headers body =>
        if okStatus status then ⟨.ok body, attempt + 1, sleeps⟩
        else if 500 ≤ status ∧ attempt + 1 ≤ retries then
          fetchTextLoop upstream retries (attempt + 1)
            (some (.httpErr status)) (sleeps ++ [BACKOFF_BASE * (attempt + 1)])
        else if attempt + 1 ≤ retries then
          fetchTextLoop upstream retries (attempt + 1)
            (some (.httpErr status)) (sleeps ++ [BACKOFF_BASE * (attempt + 1)])
        else fetchTextLoop upstream retries (attempt + 1)
          (some (.httpErr status)) sleeps
      | .netErr m =>
        if attempt + 1 ≤ retries then
          fetchTextLoop upstream retries (attempt + 1) (some (.netFail m))
            (sleeps ++ [BACKOFF_BASE * (attempt + 1)])
        else fetchTextLoop upstream retries (attempt + 1) (some (.netFail m))
          sleeps
    else ⟨.fail lastErr, attempt, sleeps⟩
termination_by attempt _ _ => retries + 1 - attempt
decreasing_by all_goals omega

/-- fetcher.js `fetchText` (cache-miss path): `attempt = 0`, no
`lastErr`, no sleeps yet. -/
def fetchText (upstream : Nat → Upstream) (retries : Nat) : LoopOut :=
  fetchTextLoop upstream retries 0 none []

/-- What streamToResponse delivers to the Express response sink. -/
inductive SinkEvent where
  | statusSend (status : Nat) (msg : String) : SinkEvent
  | streamed (headers : List (String × String)) (body : String) : SinkEvent
deriving DecidableEq, Repr

def headerWhitelist : List String :=
  ["content-type", "content-length", "last-modified", "etag", "cache-control"]

/-- Mirror only whitelisted upstream headers, in whitelist order. -/
def filterHeaders (hs : List (String × String)) : List (String × String) :=
  headerWhitelist.filterMap (fun h =>
    (hs.find? (fun p => p.1 == h)).map (fun p => (h, p.2)))

/-- fetcher.js `streamToResponse` retry loop: an ok response streams the
(whitelist-filtered) headers and body to the sink; a non-ok 5xx with
budget left retries; any other non-ok status is terminal
(`res.status(s).send(...)`, no throw); a rejected fetch takes the catch
path; when the loop exhausts its attempts the sink receives the terminal
`res.status(502).send('Failed to fetch resource')`. -/
def streamLoop (upstream : Nat → Upstream) (retries : Nat) :
    Nat → Option FetchErr → List Nat → SinkEvent × Nat × List Nat
  | attempt, lastErr, sleeps =>
    if attempt ≤ retries then
      match upstream (attempt + 1) with
      | .resp status headers body =>
        if okStatus status then
          (.streamed (filterHeaders headers) body, attempt + 1, sleeps)
        else if 500 ≤ status ∧ attempt + 1 ≤ retries then
          streamLoop upstream retries (attempt + 1) (some (.httpErr status))
            (sleeps ++ [BACKOFF_BASE * (attempt + 1)])
        else
          (.statusSend status ("Upstream error: " ++ toString status),
            attempt + 1, sleeps)
      | .netErr m =>
        if attempt + 1 ≤ retries then
          streamLoop upstream retries (attempt + 1) (some (.netFail m))
            (sleeps ++ [BACKOFF_BASE * (attempt + 1)])
        else streamLoop upstream retries (attempt + 1) (some (.netFail m))
          sleeps
    else (.statusSend 502 "Failed to fetch resource", attempt, sleeps)
termination_by attempt _ _ => retries + 1 - attempt
decreasing_by all_goals omega

/-- fetcher.js `streamToResponse` (cache-miss path). -/
def streamToResponse (upstream : Nat → Upstream) (retries : Nat) :
    SinkEvent × Nat × List Nat :=
  streamLoop upstream retries 0 none []

end Fetcher

/-! ## WHATWG URL model (Node's `new URL`, `URLSearchParams`)

sanitize.js, validator.js (part_004) and rewrite.js all go through Node's
WHATWG URL implementation.  The fragment needed here is modelled on
`List Char`: http/https absolute URLs with host, optional port, path
(with dot-segment removal) and raw query; IPv6 hosts keep their brackets
in `hostname`, exactly as WHATWG serializes them.  Not modelled (none of
the driving inputs use them): IDNA, percent-encoding normalization of
paths/hosts, IPv4 shorthand canonicalization, userinfo round-tripping,
backslash-as-slash, and non-http(s) schemes (which the validators reject
anyway). -/

namespace URLModel

def toLowerChar (c : Char) : Char :=
  if 'A' ≤ c ∧ c ≤ 'Z' then Char.ofNat (c.toNat + 32) else c

def isDigitChar (c : Char) : Bool := '0' ≤ c ∧ c ≤ '9'

def isAlphaChar (c : Char) : Bool :=
  ('a' ≤ c ∧ c ≤ 'z') ∨ ('A' ≤ c ∧ c ≤ 'Z')

def isHexDigitChar (c : Char) : Bool :=
  isDigitChar c ∨ ('a' ≤ c ∧ c ≤ 'f') ∨ ('A' ≤ c ∧ c ≤ 'F')

def hexVal (c : Char) : Option Nat :=
  if isDigitChar c then some (c.toNat - 48)
  else if 'a' ≤ c ∧ c ≤ 'f' then some (c.toNat - 87)
  else if 'A' ≤ c ∧ c ≤ 'F' then some (c.toNat - 55)
  else none

def hexUpperDigit (n : Nat) : Char :=
  if n < 10 then Char.ofNat (48 + n) else Char.ofNat (55 + n)

def natDigits (n : Nat) : List Char := (Nat.repr n).toList

def ciEqChar (a b : Char) : Bool := toLowerChar a = toLowerChar b

/-- Does `hay` start with `needle`, letters compared case-insensitively? -/
def startsWithCI : List Char → List Char → Bool
  | [], _ => true
  | _ :: _, [] => false
  | n :: ns, h :: hs => ciEqChar n h ∧ startsWithCI ns hs

/-- Case-insensitive substring test (an unanchored regex literal). -/
def containsCI (needle : List Char) : List Char → Bool
  | [] => needle.isEmpty
  | h :: hs => startsWithCI needle (h :: hs) ∨ containsCI needle hs

def splitOnChar (c : Char) : List Char → List (List Char)
  | [] => [[]]
  | x :: xs =>
    let r := splitOnChar c xs
    if x = c then [] :: r
    else
      match r with
      | h :: t => (x :: h) :: t
      | [] => [[x]]

/-- Leading/trailing C0-control-and-space stripping done by the URL
parser (and a JS `String.trim`, for the characters arising here). -/
def trimURL (l : List Char) : List Char :=
  ((l.dropWhile (fun c => c.toNat ≤ 32)).reverse.dropWhile
    (fun c => c.toNat ≤ 32)).reverse

/-- UTF-8 encoding of one character. -/
def utf8Bytes (c : Char) : List Nat :=
  let n := c.toNat
  if n < 128 then [n]
  else if n < 2048 then [192 + n / 64, 128 + n % 64]
  else if n < 65536 then
    [224 + n / 4096, 128 + (n / 64) % 64, 128 + n % 64]
  else
    [240 + n / 262144, 128 + (n / 4096) % 64, 128 + (n / 64) % 64,
      128 + n % 64]

def strBytes (l : List Char) : List Nat := (l.map utf8Bytes).flatten

def replChar : Char := Char.ofNat 0xFFFD

/-- UTF-8 decoding with U+FFFD replacement on errors (the WHATWG
`application/x-www-form-urlencoded` byte-to-string step). -/
def utf8DecodeLossy : List Nat → List Char
  | [] => []
  | b :: rest =>
    if b < 128 then Char.ofNat b :: utf8DecodeLossy rest
    else if b < 194 then replChar :: utf8DecodeLossy rest
    else if b < 224 then
      match rest with
      | b2 :: rest2 =>
        if 128 ≤ b2 ∧ b2 < 192 then
          Char.ofNat ((b - 192) * 64 + (b2 - 128)) :: utf8DecodeLossy rest2
        else replChar :: utf8DecodeLossy (b2 :: rest2)
      | [] => [replChar]
    else if b < 240 then
      match rest with
      | b2 :: b3 :: rest3 =>
        if (128 ≤ b2 ∧ b2 < 192) ∧ (128 ≤ b3 ∧ b3 < 192) then
          let cp := (b - 224) * 4096 + (b2 - 128) * 64 + (b3 - 128)
          (if 2048 ≤ cp ∧ (cp < 55296 ∨ 57344 ≤ cp) then Char.ofNat cp
           else replChar) :: utf8DecodeLossy rest3
        else replChar :: utf8DecodeLossy (b2 :: b3 :: rest3)
      | _ => [replChar]
    else if b < 245 then
      match rest with
      | b2 :: b3 :: b4 :: rest4 =>
        if (128 ≤ b2 ∧ b2 < 192) ∧ (128 ≤ b3 ∧ b3 < 192) ∧
            (128 ≤ b4 ∧ b4 < 192) then
          let cp := (b - 240) * 262144 + (b2 - 128) * 4096 +
            (b3 - 128) * 64 + (b4 - 128)
          (if 65536 ≤ cp ∧ cp < 1114112 then Char.ofNat cp else replChar) ::
            utf8DecodeLossy (b2 :: b3 :: b4 :: rest4)
        else replChar :: utf8DecodeLossy (b2 :: b3 :: b4 :: rest4)
      | _ => [replChar]
    else replChar :: utf8DecodeLossy rest

/-- Percent/plus decoding of an urlencoded token to bytes (invalid `%`
sequences pass through literally, per the WHATWG parser). -/
def urlDecodeBytes : List Char → List Nat
  | [] => []
  | c :: rest =>
    if c = '%' then
      match rest with
      | a :: b :: rest2 =>
        match hexVal a, hexVal b with
        | some ha, some hb => (16 * ha + hb) :: urlDecodeBytes rest2
        | _, _ => utf8Bytes '%' ++ urlDecodeBytes (a :: b :: rest2)
      | [a] => utf8Bytes '%' ++ urlDecodeBytes [a]
      | [] => utf8Bytes '%'
    else if c = '+' then 32 :: urlDecodeBytes rest
    else utf8Bytes c ++ urlDecodeBytes rest

def formDecodeStr (l : List Char) : List Char :=
  utf8DecodeLossy (urlDecodeBytes l)

/-- Byte kept verbatim by the urlencoded serializer. -/
def formSafeByte (b : Nat) : Bool :=
  (48 ≤ b ∧ b ≤ 57) ∨ (65 ≤ b ∧ b ≤ 90) ∨ (97 ≤ b ∧ b ≤ 122) ∨
    b = 42 ∨ b = 45 ∨ b = 46 ∨ b = 95

def encodeFormBytes : List Nat → List Char
  | [] => []
  | b :: rest =>
    (if b = 32 then ['+']
     else if formSafeByte b then [Char.ofNat b]
     else ['%', hexUpperDigit (b / 16), hexUpperDigit (b % 16)]) ++
      encodeFormBytes rest

def encodeForm (l : List Char) : List Char := encodeFormBytes (strBytes l)

/-- `URLSearchParams` view of a raw query: split on `&`, drop empty
pieces, split each at the first `=`, percent-decode both sides. -/
def parseQueryString (q : List Char) : List (List Char × List Char) :=
  (splitOnChar '&' q).filterMap (fun piece =>
    if piece.isEmpty then none
    else
      let k := piece.takeWhile (fun c => c ≠ '=')
      let rest := piece.drop k.length
      let v : List Char := match rest with | '=' :: vs => vs | _ => []
      some (formDecodeStr k, formDecodeStr v))

def serializeParams (ps : List (List Char × List Char)) : List Char :=
  match ps with
  | [] => []
  | p :: rest =>
    rest.foldl (fun acc q => acc ++ '&' :: (encodeForm q.1 ++ '=' ::
      encodeForm q.2)) (encodeForm p.1 ++ '=' :: encodeForm p.2)

/-- Parsed http/https URL record (`hostname` keeps IPv6 brackets, the
scheme and host are lowercased, a default port is normalized away,
`query` is the raw text after `?`, the fragment is dropped). -/
structure URLRec where
  scheme : List Char
  host : List Char
  port : Option Nat
  path : List Char
  query : Option (List Char)
deriving DecidableEq, Repr

def splitSchemeAux : List Char → Option (List Char × List Char)
  | [] => none
  | c :: cs =>
    if c = ':' then some ([], cs)
    else if isAlphaChar c ∨ isDigitChar c ∨ c = '+' ∨ c = '-' ∨ c = '.' then
      match splitSchemeAux cs with
      | some (sch, rest) => some (c :: sch, rest)
      | none => none
    else none

/-- Split `scheme:rest`, requiring a leading ASCII letter. -/
def splitScheme : List Char → Option (List Char × List Char)
  | [] => none
  | c :: cs =>
    if isAlphaChar c then
      match splitSchemeAux cs with
      | some (sch, rest) => some (c :: sch, rest)
      | none => none
    else none

def forbiddenHostChar (c : Char) : Bool :=
  c = ' ' ∨ c = '#' ∨ c = '/' ∨ c = ':' ∨ c = '<' ∨ c = '>' ∨ c = '?' ∨
    c = '@' ∨ c = '[' ∨ c = '\\' ∨ c = ']' ∨ c = '^' ∨ c = '|'

def isIPv6Char (c : Char) : Bool := isHexDigitChar c ∨ c = ':' ∨ c = '.'

def defaultPort (scheme : List Char) : Option Nat :=
  if scheme = "http".toList then some 80
  else if scheme = "https".toList then some 443
  else none

def normPort (scheme : List Char) (p : Option Nat) : Option Nat :=
  match p with
  | some n => if defaultPort scheme = some n then none else some n
  | none => none

def parsePortDigits : List Char → Option (Option Nat)
  | [] => some none
  | ds =>
    if ds.all isDigitChar then
      let n := ds.foldl (fun acc c => acc * 10 + (c.toNat - 48)) 0
      if n ≤ 65535 then some (some n) else none
    else none

/-- Host-and-port parsing of an authority (userinfo before a final `@`
is accepted and dropped). -/
def parseHostPort (scheme : List Char) (auth : List Char) :
    Option (List Char × Option Nat) :=
  let hostport := (auth.reverse.takeWhile (fun c => c ≠ '@')).reverse
  match hostport with
  | '[' :: rest =>
    let inside := rest.takeWhile (fun c => c ≠ ']')
    let after := rest.drop inside.length
    match after with
    | ']' :: tail =>
      if ¬ inside.isEmpty ∧ inside.all isIPv6Char ∧ inside.contains ':' then
        let host := '[' :: (inside.map toLowerChar ++ [']'])
        match tail with
        | [] => some (host, none)
        | ':' :: p =>
          (parsePortDigits p).map (fun po => (host, normPort scheme po))
        | _ => none
      else none
    | _ => none
  | _ =>
    let hostpart := hostport.takeWhile (fun c => c ≠ ':')
    let after := hostport.drop hostpart.length
    if hostpart.isEmpty ∨ hostpart.any forbiddenHostChar then none
    else
      let host := hostpart.map toLowerChar
      match after with
      | ':' :: p =>
        (parsePortDigits p).map (fun po => (host, normPort scheme po))
      | _ => some (host, none)

/-- Dot-segment removal over a segment list (`..` pops, `.` is skipped;
at the end both leave a trailing empty segment). -/
def dotSegsAux : List (List Char) → List (List Char) → List (List Char)
  | acc, [] => acc
  | acc, [seg] =>
    if seg = "..".toList then acc.dropLast ++ [[]]
    else if seg = ".".toList then acc ++ [[]]
    else acc ++ [seg]
  | acc, seg :: rest =>
    if seg = "..".toList then dotSegsAux acc.dropLast rest
    else if seg = ".".toList then dotSegsAux acc rest
    else dotSegsAux (acc ++ [seg]) rest

def joinSlash (segs : List (List Char)) : List Char :=
  segs.foldl (fun acc seg => acc ++ '/' :: seg) []

def normalizePath (p : List Char) : List Char :=
  match p with
  | [] => ['/']
  | '/' :: rest => joinSlash (dotSegsAux [] (splitOnChar '/' rest))
  | _ => joinSlash (dotSegsAux [] (splitOnChar '/' p))

/-- `new URL(s)` for absolute http/https input. -/
def parseAbsoluteURL (s : List Char) : Option URLRec :=
  let s := trimURL s
  match splitScheme s with
  | none => none
  | some (sch, rest) =>
    let scheme := sch.map toLowerChar
    if scheme = "http".toList ∨ scheme = "https".toList then
      match rest with
      | '/' :: '/' :: rest2 =>
        let auth := rest2.takeWhile
          (fun c => c ≠ '/' ∧ c ≠ '?' ∧ c ≠ '#')
        let tail := rest2.drop auth.length
        match parseHostPort scheme auth with
        | none => none
        | some (host, port) =>
          let tail := tail.takeWhile (fun c => c ≠ '#')
          let path := tail.takeWhile (fun c => c ≠ '?')
          let rest3 := tail.drop path.length
          let q : Option (List Char) :=
            match rest3 with
            | '?' :: qs => some qs
            | _ => none
          some ⟨scheme, host, port, normalizePath path, q⟩
      | _ => none
    else none

/-- WHATWG URL serializer (`url.href` / `url.toString()`). -/
def serializeURL (u : URLRec) : List Char :=
  u.scheme ++ (':' :: '/' :: '/' :: []) ++ u.host ++
    (match u.port with | none => [] | some p => ':' :: natDigits p) ++
    u.path ++ (match u.query with | none => [] | some q => '?' :: q)

/-- The base path up to and including its last `/`. -/
def dirOf (p : List Char) : List Char :=
  (p.reverse.dropWhile (fun c => c ≠ '/')).reverse

/-- `new URL(link, base).href`: absolute links stand alone; otherwise
protocol-relative, path-absolute, query-only, fragment-only and relative
references are resolved against the parsed base. -/
def resolveURL (link base : List Char) : Option (List Char) :=
  match parseAbsoluteURL link with
  | some u => some (serializeURL u)
  | none =>
    match parseAbsoluteURL base with
    | none => none
    | some b =>
      let link := link.takeWhile (fun c => c ≠ '#')
      match link with
      | [] => some (serializeURL b)
      | '/' :: '/' :: _ =>
        match parseAbsoluteURL (b.scheme ++ ':' :: link) with
        | some u => some (serializeURL u)
        | none => none
      | '/' :: _ =>
        let path := link.takeWhile (fun c => c ≠ '?')
        let rest := link.drop path.length
        let q : Option (List Char) :=
          match rest with | '?' :: qs => some qs | _ => none
        some (serializeURL ⟨b.scheme, b.host, b.port, normalizePath path, q⟩)
      | '?' :: qs => some (serializeURL ⟨b.scheme, b.host, b.port, b.path,
          some qs⟩)
      | _ =>
        let path := link.takeWhile (fun c => c ≠ '?')
        let rest := link.drop path.length
        let q : Option (List Char) :=
          match rest with | '?' :: qs => some qs | _ => none
        some (serializeURL ⟨b.scheme, b.host, b.port,
          normalizePath (dirOf b.path ++ path), q⟩)

/-- JS `\s` (for the character set arising here). -/
def isSpaceChar (c : Char) : Bool :=
  c = ' ' ∨ c = '\t' ∨ c = '\n' ∨ c = '\r' ∨ c.toNat = 12 ∨ c.toNat = 11

/-- JS `String.trim` (ASCII whitespace). -/
def jsTrim (l : List Char) : List Char :=
  ((l.dropWhile isSpaceChar).reverse.dropWhile isSpaceChar).reverse

def isWordChar (c : Char) : Bool := isAlphaChar c ∨ isDigitChar c ∨ c = '_'

/-- The single-quote character. -/
def squote : Char := Char.ofNat 39

/-- The backtick character. -/
def btick : Char := Char.ofNat 96

/-- Characters unescaped by `encodeURIComponent`. -/
def uriUnreservedChar (c : Char) : Bool :=
  isAlphaChar c ∨ isDigitChar c ∨ c = '-' ∨ c = '_' ∨ c = '.' ∨ c = '!' ∨
    c = '~' ∨ c = '*' ∨ c = squote ∨ c = '(' ∨ c = ')'

/-- JS `encodeURIComponent`: unreserved characters pass through, all
other characters become uppercase `%XX` escapes of their UTF-8 bytes. -/
def encodeURIComponent : List Char → List Char
  | [] => []
  | c :: rest =>
    (if uriUnreservedChar c then [c]
     else (utf8Bytes c).flatMap
       (fun b => ['%', hexUpperDigit (b / 16), hexUpperDigit (b % 16)])) ++
      encodeURIComponent rest

/-- Percent-decoding to bytes; malformed `%` sequences throw (strict,
as in JS `decodeURIComponent`). -/
def pctDecodeBytes : List Char → Option (List Nat)
  | [] => some []
  | c :: rest =>
    if c = '%' then
      match rest with
      | a :: b :: rest2 =>
        match hexVal a, hexVal b with
        | some ha, some hb => (pctDecodeBytes rest2).map ((16 * ha + hb) :: ·)
        | _, _ => none
      | _ => none
    else (pctDecodeBytes rest).map (fun t => utf8Bytes c ++ t)

/-- Multi-byte branches of strict UTF-8 decoding; `dec` decodes the
remaining bytes after the current sequence. -/
def utf8Multi (dec : List Nat → Option (List Char)) (b : Nat)
    (rest : List Nat) : Option (List Char) :=
  if b < 194 then none
  else if b < 224 then
    match rest with
    | b2 :: rest2 =>
      if 128 ≤ b2 ∧ b2 < 192 then
        (dec rest2).map (Char.ofNat ((b - 192) * 64 + (b2 - 128)) :: ·)
      else none
    | [] => none
  else if b < 240 then
    match rest with
    | b2 :: b3 :: rest3 =>
      if (128 ≤ b2 ∧ b2 < 192) ∧ (128 ≤ b3 ∧ b3 < 192) then
        let cp := (b - 224) * 4096 + (b2 - 128) * 64 + (b3 - 128)
        if 2048 ≤ cp ∧ (cp < 55296 ∨ 57344 ≤ cp) then
          (dec rest3).map (Char.ofNat cp :: ·)
        else none
      else none
    | _ => none
  else if b < 245 then
    match rest with
    | b2 :: b3 :: b4 :: rest4 =>
      if (128 ≤ b2 ∧ b2 < 192) ∧ (128 ≤ b3 ∧ b3 < 192) ∧
          (128 ≤ b4 ∧ b4 < 192) then
        let cp := (b - 240) * 262144 + (b2 - 128) * 4096 +
          (b3 - 128) * 64 + (b4 - 128)
        if 65536 ≤ cp ∧ cp < 1114112 then
          (dec rest4).map (Char.ofNat cp :: ·)
        else none
      else none
    | _ => none
  else none

/-- Strict UTF-8 decoding (rejects stray/overlong/surrogate input),
fuel-indexed: one fuel unit per decoded code point, so the byte count
is always enough fuel. -/
def utf8DecodeStrictF : Nat → List Nat → Option (List Char)
  | _, [] => some []
  | 0, _ :: _ => none
  | fuel + 1, b :: rest =>
    if b < 128 then (utf8DecodeStrictF fuel rest).map (Char.ofNat b :: ·)
    else utf8Multi (utf8DecodeStrictF fuel) b rest

/-- Strict UTF-8 decoding at full fuel. -/
def utf8DecodeStrict (bytes : List Nat) : Option (List Char) :=
  utf8DecodeStrictF bytes.length bytes

/-- JS `decodeURIComponent` (throws modelled as `none`). -/
def decodeURIComponent (s : List Char) : Option (List Char) :=
  (pctDecodeBytes s).bind utf8DecodeStrict

end URLModel

/-! ## Target validation (sanitize.js `sanitizeURL`, part_004 validator) -/

namespace Sanitize

open URLModel

/-- sanitize.js `badHosts`. -/
def badHosts : List (List Char) :=
  ["localhost", "127.", "::1", "0.0.0.0"].map String.toList

/-- The `/^https?:\/\//i` test. -/
def startsWithHttpScheme (l : List Char) : Bool :=
  startsWithCI "http://".toList l ∨ startsWithCI "https://".toList l

/-- The `/(<|>|script|javascript:)/i` test on a (decoded) query value. -/
def badParamValue (v : List Char) : Bool :=
  v.contains '<' ∨ v.contains '>' ∨ containsCI "script".toList v ∨
    containsCI "javascript:".toList v

/-- `searchParams.forEach((v, k) => if bad v then delete k)`: the live
list is iterated by index, and `delete` both removes every entry with
the key and shifts later entries down — so the entry following a
deletion is skipped.  Returns the final list and whether any delete
happened (a delete makes `toString` reserialize the query).  The first
argument is an iteration budget making the recursion structural: the
index grows by one per step and the list never grows, so a budget equal
to the initial list length is never the reason the loop stops. -/
def forEachDeleteBad : Nat → List (List Char × List Char) → Nat → Bool →
    List (List Char × List Char) × Bool
  | 0, l, _, mutated => (l, mutated)
  | fuel + 1, l, i, mutated =>
    if h : i < l.length then
      let p := l.get ⟨i, h⟩
      if badParamValue p.2 then
        forEachDeleteBad fuel (l.filter (fun q => q.1 ≠ p.1)) (i + 1) true
      else forEachDeleteBad fuel l (i + 1) mutated
    else (l, mutated)

/-- sanitize.js `sanitizeURL`: coerce a missing scheme to `https`,
parse, reject blocklisted host prefixes, drop query parameters whose
value matches the injection pattern, return the reserialized URL. -/
def sanitizeURL (input : List Char) : Option (List Char) :=
  if input.isEmpty then none
  else
    let raw := trimURL input
    let raw := if startsWithHttpScheme raw then raw
      else "https://".toList ++ raw
    match parseAbsoluteURL raw with
    | none => none
    | some parsed =>
      if badHosts.any (fun h => h.isPrefixOf parsed.host) then none
      else
        match parsed.query with
        | none => some (serializeURL parsed)
        | some q =>
          let ps := forEachDeleteBad (parseQueryString q).length
            (parseQueryString q) 0 false
          let newq : Option (List Char) :=
            if ps.2 then
              (if ps.1.isEmpty then none else some (serializeParams ps.1))
            else some q
          some (serializeURL ⟨parsed.scheme, parsed.host, parsed.port,
            parsed.path, newq⟩)

end Sanitize

namespace Validator

open URLModel

/-- part_004 validator.js result object `{ valid, reason }`. -/
structure ValidationResult where
  valid : Bool
  reason : Option String
deriving DecidableEq, Repr

def BLACKLIST_HOSTS : List (List Char) :=
  ["127.0.0.1", "localhost", "::1"].map String.toList

/-- validator.js `isValidUrl`: `new URL(str)` succeeds and the protocol
is http/https (the model's parser only accepts http/https, so success of
the parse is exactly that conjunction). -/
def isValidUrl (s : List Char) : Bool := (parseAbsoluteURL s).isSome

/-- validator.js `isHostAllowed`: non-empty and not an exact (lowercased)
member of the blacklist. -/
def isHostAllowed (host : List Char) : Bool :=
  if host.isEmpty then false
  else ¬ BLACKLIST_HOSTS.contains (host.map toLowerChar)

/-- validator.js `validateUrl`. -/
def validateUrl (s : List Char) : ValidationResult :=
  if ¬ isValidUrl s then ⟨false, some "Invalid URL"⟩
  else
    match parseAbsoluteURL s with
    | some u =>
      if ¬ isHostAllowed u.host then ⟨false, some "Host is blacklisted"⟩
      else ⟨true, none⟩
    | none => ⟨false, some "Invalid URL"⟩

end Validator

/-! ## Rewrite engine (rewrite.js)

Each `String.replace(regex, cb)` with a `/g` regex is modelled by a
left-to-right scanner: at each position a matcher either fails (the
character is copied) or returns the callback's replacement together with
the number of characters consumed, and scanning resumes after the match
(JS `lastIndex` semantics, no overlapping matches; none of the regexes
here can match the empty string).  The scanner's first argument is an
iteration budget making the recursion structural; every step consumes at
least one character, so a budget equal to the input length is never the
reason scanning stops. -/

namespace Rewrite

open URLModel

/-- rewrite.js `safeResolve`: `new URL(link, base).href`, falling back
to the original link when resolution throws. -/
def safeResolve (link base : List Char) : List Char :=
  match resolveURL link base with
  | some href => href
  | none => link

/-- rewrite.js `escapeAttr`. -/
def escapeAttr (s : List Char) : List Char :=
  s.flatMap (fun c =>
    if c = '"' then "&quot;".toList
    else if c = squote then "&#39;".toList
    else [c])

/-- Scanner for a global regex-replace.  The matcher sees the previous
input character (for `\b`) and the current suffix; on success it yields
the replacement and the total number of characters consumed (≥ 1). -/
def scanReplaceB (f : Option Char → List Char → Option (List Char × Nat)) :
    Nat → Option Char → List Char → List Char
  | _, _, [] => []
  | 0, _, s => s
  | fuel + 1, prev, c :: rest =>
    match f prev (c :: rest) with
    | some (rep, k) =>
      rep ++ scanReplaceB f fuel ((c :: rest)[k - 1]?) (List.drop (k - 1) rest)
    | none => c :: scanReplaceB f fuel (some c) rest

/-- Scanner for matchers that ignore the previous character. -/
def scanReplace (f : List Char → Option (List Char × Nat)) (s : List Char) :
    List Char :=
  scanReplaceB (fun _ t => f t) s.length none s

/-- Case-insensitive literal match, returning the remainder. -/
def matchLitCI : List Char → List Char → Option (List Char)
  | [], s => some s
  | _ :: _, [] => none
  | p :: ps, c :: cs => if ciEqChar p c then matchLitCI ps cs else none

/-- Exact split at the first occurrence of a literal. -/
def splitAtLit (pat : List Char) : List Char → Option (List Char × List Char)
  | [] => if pat.isEmpty then some ([], []) else none
  | c :: rest =>
    if pat.isPrefixOf (c :: rest) then some ([], (c :: rest).drop pat.length)
    else
      match splitAtLit pat rest with
      | some (before, after) => some (c :: before, after)
      | none => none

/-- Case-insensitive split at the first occurrence of a literal. -/
def splitAtLitCI (pat : List Char) : List Char → Option (List Char × List Char)
  | [] => if pat.isEmpty then some ([], []) else none
  | c :: rest =>
    match matchLitCI pat (c :: rest) with
    | some after => some ([], after)
    | none =>
      match splitAtLitCI pat rest with
      | some (before, after) => some (c :: before, after)
      | none => none

/-- `String.replace` with a plain string pattern: first occurrence only,
case-sensitive. -/
def replaceFirst (s pat rep : List Char) : List Char :=
  match splitAtLit pat s with
  | some (before, after) => before ++ rep ++ after
  | none => s

/-- Does any suffix of the input satisfy the test (an unanchored regex
search)? -/
def anyPosMatch (p : List Char → Bool) : List Char → Bool
  | [] => p []
  | c :: rest => p (c :: rest) ∨ anyPosMatch p rest

/-- `/^https?:\/\//i`. -/
def isHttpAbs (l : List Char) : Bool :=
  startsWithCI "http://".toList l ∨ startsWithCI "https://".toList l

/-- `/url\(([^)]+)\)/gi`: `url(`, a non-empty run of non-`)` characters
(the group), `)`.  Returns the group and the consumed length. -/
def matchUrlRef (s : List Char) : Option (List Char × Nat) :=
  match matchLitCI "url(".toList s with
  | none => none
  | some rest =>
    let inner := rest.takeWhile (fun c => c ≠ ')')
    if inner.isEmpty then none
    else
      match rest.drop inner.length with
      | ')' :: _ => some (inner, 4 + inner.length + 1)
      | _ => none

/-- The rewriteCss `url(...)` callback: strip quotes and trim, keep
`data:` URIs, otherwise resolve and route through the resource prefix. -/
def cssUrlReplacement (base resourcePath urlPart : List Char) : List Char :=
  let cleaned := jsTrim (urlPart.filter (fun c => ¬(c = '"' ∨ c = squote)))
  if "data:".toList.isPrefixOf cleaned then "url(".toList ++ cleaned ++ [')']
  else
    "url(".toList ++ resourcePath ++
      encodeURIComponent (safeResolve cleaned base) ++ [')']

def cssUrlMatcher (base resourcePath : List Char) (s : List Char) :
    Option (List Char × Nat) :=
  (matchUrlRef s).map (fun g => (cssUrlReplacement base resourcePath g.1, g.2))

/-- One attempt (with or without the optional `url(`) of the rewrite.js
`@import` regex `/@import\s+(?:url\()?['"]?([^'"\)]+)['"]?\)?/gi`, after
the mandatory whitespace.  Returns the group and chars consumed. -/
def importAfterWs (r1 : List Char) (useUrlParen : Bool) :
    Option (List Char × Nat) :=
  let p2 : List Char × Nat :=
    if useUrlParen then
      match matchLitCI "url(".toList r1 with
      | some rr => (rr, 4)
      | none => (r1, 0)
    else (r1, 0)
  let p3 : List Char × Nat :=
    match p2.1 with
    | c :: cs => if c = '"' ∨ c = squote then (cs, 1) else (p2.1, 0)
    | [] => (p2.1, 0)
  let grp := p3.1.takeWhile (fun c => ¬(c = '"' ∨ c = squote ∨ c = ')'))
  if grp.isEmpty then none
  else
    let r4 := p3.1.drop grp.length
    let c5 : Nat :=
      match r4 with
      | c :: _ => if c = '"' ∨ c = squote then 1 else 0
      | [] => 0
    let c6 : Nat :=
      match r4.drop c5 with
      | ')' :: _ => 1
      | _ => 0
    some (grp, p2.2 + p3.2 + grp.length + c5 + c6)

/-- `/@import\s+(?:url\()?['"]?([^'"\)]+)['"]?\)?/gi` at the current
position (backtracking over the optional `url(` when the first attempt
leaves an empty group). -/
def matchImportRef (s : List Char) : Option (List Char × Nat) :=
  match matchLitCI "@import".toList s with
  | none => none
  | some rest =>
    let ws := rest.takeWhile isSpaceChar
    if ws.isEmpty then none
    else
      let r1 := rest.drop ws.length
      let res :=
        match importAfterWs r1 true with
        | some g => some g
        | none => importAfterWs r1 false
      res.map (fun g => (g.1, 7 + ws.length + g.2))

def cssImportMatcher (base resourcePath : List Char) (s : List Char) :
    Option (List Char × Nat) :=
  (matchImportRef s).map (fun g =>
    ("@import url(\"".toList ++ resourcePath ++
      encodeURIComponent (safeResolve g.1 base) ++ "\")".toList, g.2))

/-- rewrite.js `rewriteCss`: rewrite `url(...)` references, then
`@import` statements, both through the resource prefix. -/
def rewriteCss (cssText base : List Char) (resourcePath : List Char) :
    List Char :=
  if cssText.isEmpty ∨ base.isEmpty then cssText
  else
    scanReplace (cssImportMatcher base resourcePath)
      (scanReplace (cssUrlMatcher base resourcePath) cssText)

/-- The three JS string-literal quotes. -/
def isJsQuote (c : Char) : Bool := c = '"' ∨ c = squote ∨ c = btick

/-- Consume `\s*`. -/
def dropWs (s : List Char) : List Char × Nat :=
  let ws := s.takeWhile isSpaceChar
  (s.drop ws.length, ws.length)

/-- `/fetch\s*\(\s*(['"`])([^'"`]+)\1/gi`. -/
def matchFetchCall (s : List Char) : Option (List Char × Char × Nat) :=
  match matchLitCI "fetch".toList s with
  | none => none
  | some r0 =>
    let w1 := dropWs r0
    match w1.1 with
    | '(' :: r1 =>
      let w2 := dropWs r1
      match w2.1 with
      | q :: r2 =>
        if isJsQuote q then
          let grp := r2.takeWhile (fun c => ¬ isJsQuote c)
          if grp.isEmpty then none
          else
            match r2.drop grp.length with
            | q2 :: _ =>
              if q2 = q then
                some (grp, q, 5 + w1.2 + 1 + w2.2 + 1 + grp.length + 1)
              else none
            | [] => none
        else none
      | [] => none
    | _ => none

def jsMethods : List (List Char) :=
  ["GET", "POST", "PUT", "DELETE", "PATCH"].map String.toList

def tryMethod (rest : List Char) : List (List Char) → Option Nat
  | [] => none
  | m :: ms =>
    match matchLitCI m rest with
    | some _ => some m.length
    | none => tryMethod rest ms

/-- `/open\s*\(\s*(['"`])?(GET|POST|PUT|DELETE|PATCH)['"]?\s*,\s*(['"`])([^'"`]+)\3/gi`:
returns the path group and the total consumed length. -/
def matchOpenCall (s : List Char) : Option (List Char × Nat) :=
  match matchLitCI "open".toList s with
  | none => none
  | some r0 =>
    let w1 := dropWs r0
    match w1.1 with
    | '(' :: r1 =>
      let w2 := dropWs r1
      let q1 : Nat :=
        match w2.1 with
        | c :: _ => if isJsQuote c then 1 else 0
        | [] => 0
      let r2 := w2.1.drop q1
      match tryMethod r2 jsMethods with
      | none => none
      | some mlen =>
        let r3 := r2.drop mlen
        let q2 : Nat :=
          match r3 with
          | c :: _ => if c = '"' ∨ c = squote then 1 else 0
          | [] => 0
        let w3 := dropWs (r3.drop q2)
        match w3.1 with
        | ',' :: r4 =>
          let w4 := dropWs r4
          match w4.1 with
          | q3 :: r5 =>
            if isJsQuote q3 then
              let grp := r5.takeWhile (fun c => ¬ isJsQuote c)
              if grp.isEmpty then none
              else
                match r5.drop grp.length with
                | q4 :: _ =>
                  if q4 = q3 then
                    some (grp, 4 + w1.2 + 1 + w2.2 + q1 + mlen + q2 + w3.2 +
                      1 + w4.2 + 1 + grp.length + 1)
                  else none
                | [] => none
            else none
          | [] => none
        | _ => none
    | _ => none

/-- `/(\.src\s*=\s*['"`])([^'"`]+)(['"`])/gi`: returns (prefix group
including the opening quote, path group, closing quote, consumed). -/
def matchSrcAssign (s : List Char) :
    Option (List Char × List Char × Char × Nat) :=
  match matchLitCI ".src".toList s with
  | none => none
  | some r0 =>
    let w1 := dropWs r0
    match w1.1 with
    | '=' :: r1 =>
      let w2 := dropWs r1
      match w2.1 with
      | q :: r2 =>
        if isJsQuote q then
          let grp := r2.takeWhile (fun c => ¬ isJsQuote c)
          if grp.isEmpty then none
          else
            match r2.drop grp.length with
            | q2 :: _ =>
              if isJsQuote q2 then
                let pre := s.take (4 + w1.2 + 1 + w2.2 + 1)
                some (pre, grp, q2,
                  4 + w1.2 + 1 + w2.2 + 1 + grp.length + 1)
              else none
            | [] => none
        else none
      | [] => none
    | _ => none

/-- `/import\s*\(\s*(['"`])([^'"`]+)\1\s*\)/gi`. -/
def matchImportCall (s : List Char) : Option (List Char × Char × Nat) :=
  match matchLitCI "import".toList s with
  | none => none
  | some r0 =>
    let w1 := dropWs r0
    match w1.1 with
    | '(' :: r1 =>
      let w2 := dropWs r1
      match w2.1 with
      | q :: r2 =>
        if isJsQuote q then
          let grp := r2.takeWhile (fun c => ¬ isJsQuote c)
          if grp.isEmpty then none
          else
            match r2.drop grp.length with
            | q2 :: r3 =>
              if q2 = q then
                let w3 := dropWs r3
                match w3.1 with
                | ')' :: _ =>
                  some (grp, q, 6 + w1.2 + 1 + w2.2 + 1 + grp.length + 1 +
                    w3.2 + 1)
                | _ => none
              else none
            | [] => none
        else none
      | [] => none
    | _ => none

/-- rewrite.js `rewriteJs`: best-effort rewriting of fetch calls,
XMLHttpRequest `open`, `.src` assignments and dynamic `import(...)`. -/
def rewriteJs (jsText base : List Char) (proxyPathOpt : List Char) :
    List Char :=
  if jsText.isEmpty ∨ base.isEmpty then jsText
  else
    let proxyPath :=
      if proxyPathOpt.isEmpty then "/proxy?url=".toList else proxyPathOpt
    let o1 := scanReplace (fun s =>
      (matchFetchCall s).map (fun g =>
        ("fetch(".toList ++ g.2.1 ::
          (proxyPath ++ encodeURIComponent (safeResolve g.1 base)) ++
          [g.2.1], g.2.2))) jsText
    let o2 := scanReplace (fun s =>
      (matchOpenCall s).map (fun g =>
        (replaceFirst (s.take g.2) g.1
          (proxyPath ++ encodeURIComponent (safeResolve g.1 base)), g.2)))
      o1
    let o3 := scanReplace (fun s =>
      (matchSrcAssign s).map (fun g =>
        (g.1 ++ (proxyPath ++ encodeURIComponent (safeResolve g.2.1 base)) ++
          [g.2.2.1], g.2.2.2))) o2
    scanReplace (fun s =>
      (matchImportCall s).map (fun g =>
        ("import(".toList ++ g.2.1 ::
          (proxyPath ++ encodeURIComponent (safeResolve g.1 base)) ++
          g.2.1 :: [')'], g.2.2))) o3

/-- rewriteHtml options after `Object.assign` with the defaults. -/
structure RewriteCfg where
  proxyPath : List Char
  resourcePath : List Char
  aggressiveSanitize : Bool
deriving DecidableEq, Repr

def defaultCfg : RewriteCfg :=
  ⟨"/proxy?url=".toList, "/resource?url=".toList, false⟩

/-- `/<base[^>]*>/gi`, replaced by the empty string. -/
def baseTagMatcher (s : List Char) : Option (List Char × Nat) :=
  match matchLitCI "<base".toList s with
  | none => none
  | some rest =>
    let inner := rest.takeWhile (fun c => c ≠ '>')
    match rest.drop inner.length with
    | '>' :: _ => some ([], 5 + inner.length + 1)
    | _ => none

/-- `http-equiv=["']?refresh` test at one position. -/
def matchRefreshAt (s : List Char) : Bool :=
  match matchLitCI "http-equiv=".toList s with
  | none => false
  | some r1 =>
    let r2 :=
      match r1 with
      | c :: cs => if c = '"' ∨ c = squote then cs else r1
      | [] => r1
    (matchLitCI "refresh".toList r2).isSome

/-- `content=["']?([^"'>]+)` at one position (the trailing optional
quote never constrains the group). -/
def matchContentAt (s : List Char) : Option (List Char) :=
  match matchLitCI "content=".toList s with
  | none => none
  | some r1 =>
    let r2 :=
      match r1 with
      | c :: cs => if c = '"' ∨ c = squote then cs else r1
      | [] => r1
    let grp := r2.takeWhile (fun c => ¬(c = '"' ∨ c = squote ∨ c = '>'))
    if grp.isEmpty then none else some grp

/-- First `content=...` capture in the matched tag text. -/
def findContentAttr : List Char → Option (List Char)
  | [] => none
  | c :: rest =>
    match matchContentAt (c :: rest) with
    | some g => some g
    | none => findContentAttr rest

/-- The meta-refresh callback of rewriteHtml. -/
def metaReplacement (base : List Char) (cfg : RewriteCfg) (m : List Char) :
    List Char :=
  match findContentAttr m with
  | none => []
  | some content =>
    let parts := (splitOnChar ';' content).map jsTrim
    match parts.find? (fun p => startsWithCI "url=".toList p) with
    | none => m
    | some urlPart =>
      let orig := ((splitOnChar '=' urlPart).drop 1).headD []
      let resolved := safeResolve orig base
      "<meta http-equiv=\"refresh\" content=\"".toList ++
        escapeAttr (parts.headD []) ++ "; url=".toList ++
        escapeAttr (cfg.proxyPath ++ encodeURIComponent resolved) ++
        "\">".toList

/-- `/<meta[^>]+http-equiv=["']?refresh["']?[^>]*>/gi`: the whole-match
region runs to the first `>`, and the refresh attribute must occur after
at least one character of the `[^>]+`. -/
def metaMatcher (base : List Char) (cfg : RewriteCfg) (s : List Char) :
    Option (List Char × Nat) :=
  match matchLitCI "<meta".toList s with
  | none => none
  | some rest =>
    let inner := rest.takeWhile (fun c => c ≠ '>')
    match rest.drop inner.length with
    | '>' :: _ =>
      let found :=
        match inner with
        | [] => false
        | _ :: t => anyPosMatch matchRefreshAt t
      if found then
        let m := s.take (5 + inner.length + 1)
        some (metaReplacement base cfg m, 5 + inner.length + 1)
      else none
    | _ => none

def tagNames : List (List Char) :=
  ["img", "script", "iframe", "audio", "video", "source", "link", "embed",
    "object"].map String.toList

/-- Try the tag-name alternation (in source order) with a trailing `\b`. -/
def tryTagName (rest : List Char) : List (List Char) → Option (List Char)
  | [] => none
  | t :: ts =>
    match matchLitCI t rest with
    | some after =>
      let okB : Bool :=
        match after with
        | c :: _ => !(isWordChar c)
        | [] => true
      if okB then some (rest.take t.length) else tryTagName rest ts
    | none => tryTagName rest ts

/-- `\bsrc=(['"])([^'"]+)\1` at one position (the `\b` holds because the
caller checks the previous character). -/
def matchSrcAttr (s : List Char) : Option (List Char × Nat) :=
  match matchLitCI "src=".toList s with
  | none => none
  | some r1 =>
    match r1 with
    | q :: r2 =>
      if q = '"' ∨ q = squote then
        let grp := r2.takeWhile (fun c => ¬(c = '"' ∨ c = squote))
        if grp.isEmpty then none
        else
          match r2.drop grp.length with
          | q2 :: _ => if q2 = q then some (grp, 4 + 1 + grp.length + 1)
              else none
          | [] => none
      else none
    | [] => none

/-- `\bhref=(['"])([^'"]+)\1` at one position. -/
def matchHrefAttr (s : List Char) : Option (List Char × Nat) :=
  match matchLitCI "href=".toList s with
  | none => none
  | some r1 =>
    match r1 with
    | q :: r2 =>
      if q = '"' ∨ q = squote then
        let grp := r2.takeWhile (fun c => ¬(c = '"' ∨ c = squote))
        if grp.isEmpty then none
        else
          match r2.drop grp.length with
          | q2 :: _ => if q2 = q then some (grp, 5 + 1 + grp.length + 1)
              else none
          | [] => none
      else none
    | [] => none

/-- `\bsrcset=(['"])([^'"]+)\1` at one position. -/
def matchSrcsetAttr (s : List Char) : Option (List Char × Nat) :=
  match matchLitCI "srcset=".toList s with
  | none => none
  | some r1 =>
    match r1 with
    | q :: r2 =>
      if q = '"' ∨ q = squote then
        let grp := r2.takeWhile (fun c => ¬(c = '"' ∨ c = squote))
        if grp.isEmpty then none
        else
          match r2.drop grp.length with
          | q2 :: _ => if q2 = q then some (grp, 7 + 1 + grp.length + 1)
              else none
          | [] => none
      else none
    | [] => none

/-- `p.split(/\s+/)`: whitespace-run-separated tokens.  The fuel makes
the recursion structural; each step consumes at least one character, so
fuel equal to the input length is never the reason splitting stops. -/
def splitWSAux : Nat → List Char → List (List Char)
  | _, [] => []
  | 0, s => [s]
  | fuel + 1, c :: rest =>
    let tok := (c :: rest).takeWhile (fun d => !(isSpaceChar d))
    let after := ((c :: rest).drop tok.length).dropWhile isSpaceChar
    tok :: splitWSAux fuel after

def splitWS (l : List Char) : List (List Char) := splitWSAux l.length l

/-- The `src` attribute callback: http(s)-absolute targets route scripts
and frame-like tags through the proxy prefix and everything else through
the resource prefix; other targets are left as matched. -/
def srcReplacement (tag base : List Char) (cfg : RewriteCfg)
    (m2 grp : List Char) : List Char :=
  let abs := safeResolve grp base
  if isHttpAbs abs then
    if tag = "script".toList ∨ tag = "iframe".toList ∨ tag = "embed".toList ∨
        tag = "object".toList then
      "src=\"".toList ++ cfg.proxyPath ++ encodeURIComponent abs ++ ['"']
    else
      "src=\"".toList ++ cfg.resourcePath ++ encodeURIComponent abs ++ ['"']
  else m2

/-- `rel\s*=\s*['"]?stylesheet` at one position. -/
def matchRelStylesheetAt (s : List Char) : Bool :=
  match matchLitCI "rel".toList s with
  | none => false
  | some r0 =>
    let w1 := dropWs r0
    match w1.1 with
    | '=' :: r1 =>
      let w2 := dropWs r1
      let r2 :=
        match w2.1 with
        | c :: cs => if c = '"' ∨ c = squote then cs else w2.1
        | [] => w2.1
      (matchLitCI "stylesheet".toList r2).isSome
    | _ => false

/-- The `href` attribute callback (`newAttrs` is the attribute text the
rel-stylesheet test runs against — the value before this replace). -/
def hrefReplacement (newAttrs base : List Char) (cfg : RewriteCfg)
    (m2 grp : List Char) : List Char :=
  let abs := safeResolve grp base
  if abs.isEmpty then m2
  else if anyPosMatch matchRelStylesheetAt newAttrs then
    "href=\"".toList ++ cfg.resourcePath ++ encodeURIComponent abs ++ ['"']
  else
    "href=\"".toList ++ cfg.proxyPath ++ encodeURIComponent abs ++ ['"']

/-- The `srcset` callback: each comma-separated candidate is resolved
and routed through the resource prefix, keeping one descriptor token. -/
def srcsetReplacement (base : List Char) (cfg : RewriteCfg)
    (srcset : List Char) : List Char :=
  let parts := (splitOnChar ',' srcset).map jsTrim
  let rewritten := parts.map (fun p =>
    let toks := splitWS p
    let src := toks.headD []
    let desc := toks[1]?
    cfg.resourcePath ++ encodeURIComponent (safeResolve src base) ++
      (match desc with
       | some d => ' ' :: d
       | none => []))
  let joined :=
    match rewritten with
    | [] => []
    | h :: t => t.foldl (fun acc x => acc ++ ", ".toList ++ x) h
  "srcset=\"".toList ++ escapeAttr joined ++ ['"']

/-- `sandbox=` substring test (case-insensitive). -/
def hasSandbox (attrs : List Char) : Bool :=
  anyPosMatch (fun s => (matchLitCI "sandbox=".toList s).isSome) attrs

/-- The whole-tag callback of rewriteHtml: rewrite `src`, `href` and
`srcset` attributes and force a sandbox on iframes. -/
def prevNonWord : Option Char → Bool
  | some c => !(isWordChar c)
  | none => true

def tagReplacement (base : List Char) (cfg : RewriteCfg)
    (tag attrs : List Char) : List Char :=
  let a1 := scanReplaceB (fun prev s =>
    (if prevNonWord prev then matchSrcAttr s else none).map
      (fun g => (srcReplacement tag base cfg (s.take g.2) g.1, g.2)))
    attrs.length none attrs
  let a2 := scanReplaceB (fun prev s =>
    (if prevNonWord prev then matchHrefAttr s else none).map
      (fun g => (hrefReplacement a1 base cfg (s.take g.2) g.1, g.2)))
    a1.length none a1
  let a3 := scanReplaceB (fun prev s =>
    (if prevNonWord prev then matchSrcsetAttr s else none).map
      (fun g => (srcsetReplacement base cfg g.1, g.2)))
    a2.length none a2
  let a4 :=
    if tag = "iframe".toList ∧ ¬ hasSandbox a3 then
      a3 ++ " sandbox=\"allow-scripts allow-forms allow-same-origin\"".toList
    else a3
  '<' :: (tag ++ a4 ++ ['>'])

/-- `/<(img|script|iframe|...)\b([^>]*)>/gi`. -/
def tagMatcher (base : List Char) (cfg : RewriteCfg) (s : List Char) :
    Option (List Char × Nat) :=
  match s with
  | '<' :: rest =>
    match tryTagName rest tagNames with
    | none => none
    | some tag =>
      let after := rest.drop tag.length
      let attrs := after.takeWhile (fun c => c ≠ '>')
      match after.drop attrs.length with
      | '>' :: _ =>
        some (tagReplacement base cfg tag attrs,
          1 + tag.length + attrs.length + 1)
      | _ => none
  | _ => none

/-- The inline-style `url(...)` callback (no `data:` exception here,
and the emitted reference is quoted). -/
def styleUrlReplacement (base : List Char) (cfg : RewriteCfg)
    (urlPart : List Char) : List Char :=
  let clean := jsTrim (urlPart.filter (fun c => ¬(c = '"' ∨ c = squote)))
  let abs := safeResolve clean base
  "url(\"".toList ++ cfg.resourcePath ++ encodeURIComponent abs ++
    "\")".toList

/-- `/style=(['"])([^'"]*?)\1/gi` (the lazy group may be empty). -/
def styleAttrMatcher (base : List Char) (cfg : RewriteCfg) (s : List Char) :
    Option (List Char × Nat) :=
  match matchLitCI "style=".toList s with
  | none => none
  | some r1 =>
    match r1 with
    | q :: r2 =>
      if q = '"' ∨ q = squote then
        let grp := r2.takeWhile (fun c => ¬(c = '"' ∨ c = squote))
        match r2.drop grp.length with
        | q2 :: _ =>
          if q2 = q then
            let replaced := scanReplace (fun t =>
              (matchUrlRef t).map
                (fun g => (styleUrlReplacement base cfg g.1, g.2))) grp
            some ("style=\"".toList ++ escapeAttr replaced ++ ['"'],
              6 + 1 + grp.length + 1)
          else none
        | [] => none
      else none
    | [] => none

/-- `/<style[^>]*>([\s\S]*?)<\/style>/gi`, rewriting the CSS inside. -/
def styleBlockMatcher (base : List Char) (cfg : RewriteCfg) (s : List Char) :
    Option (List Char × Nat) :=
  match matchLitCI "<style".toList s with
  | none => none
  | some rest =>
    let inner := rest.takeWhile (fun c => c ≠ '>')
    match rest.drop inner.length with
    | '>' :: body =>
      match splitAtLitCI "</style>".toList body with
      | some (css, _) =>
        some ("<style>".toList ++ rewriteCss css base cfg.resourcePath ++
          "</style>".toList, 6 + inner.length + 1 + css.length + 8)
      | none => none
    | _ => none

/-- `/<script\b([^>]*)>([\s\S]*?)<\/script>/gi`, rewriting the JS
inside and keeping the attributes. -/
def scriptBlockMatcher (base : List Char) (cfg : RewriteCfg) (s : List Char) :
    Option (List Char × Nat) :=
  match matchLitCI "<script".toList s with
  | none => none
  | some rest =>
    let okB : Bool :=
      match rest with
      | c :: _ => !(isWordChar c)
      | [] => true
    if okB then
      let attrs := rest.takeWhile (fun c => c ≠ '>')
      match rest.drop attrs.length with
      | '>' :: body =>
        match splitAtLitCI "</script>".toList body with
        | some (code, _) =>
          some ("<script".toList ++ attrs ++ '>' ::
            (rewriteJs code base cfg.proxyPath ++ "</script>".toList),
            7 + attrs.length + 1 + code.length + 9)
        | none => none
      | _ => none
    else none

/-- `/\son\w+=(['"])[\s\S]*?\1/gi`, removed under aggressive
sanitization. -/
def onHandlerMatcher (s : List Char) : Option (List Char × Nat) :=
  match s with
  | c0 :: r0 =>
    if isSpaceChar c0 then
      match matchLitCI "on".toList r0 with
      | none => none
      | some r1 =>
        let w := r1.takeWhile isWordChar
        if w.isEmpty then none
        else
          match r1.drop w.length with
          | '=' :: q :: r2 =>
            if q = '"' ∨ q = squote then
              let body := r2.takeWhile (fun c => c ≠ q)
              match r2.drop body.length with
              | q2 :: _ =>
                if q2 = q then
                  some ([], 1 + 2 + w.length + 1 + 1 + body.length + 1)
                else none
              | [] => none
            else none
          | _ => none
    else none
  | [] => none

/-- rewrite.js `rewriteHtml`: base-tag removal, meta-refresh rewrite,
src/href/srcset tag rewrite (with iframe sandboxing), inline style
`url(...)` rewrite, `<style>` and `<script>` block rewrites, and the
optional removal of inline event handlers. -/
def rewriteHtml (html base : List Char) (cfg : RewriteCfg) : List Char :=
  if html.isEmpty ∨ base.isEmpty then html
  else
    let o1 := scanReplace baseTagMatcher html
    let o2 := scanReplace (metaMatcher base cfg) o1
    let o3 := scanReplace (tagMatcher base cfg) o2
    let o4 := scanReplace (styleAttrMatcher base cfg) o3
    let o5 := scanReplace (styleBlockMatcher base cfg) o4
    let o6 := scanReplace (scriptBlockMatcher base cfg) o5
    if cfg.aggressiveSanitize then scanReplace onHandlerMatcher o6 else o6

end Rewrite

/-! ## CSS parser import inlining (part_000 `cssParser` section)

`inlineImports(css, baseUrl, fetcherFn)` repeatedly `exec`s the
module-level regex

  `IMPORT_REGEX = /@import\s+(?:url\()?[\x27"]?([^\x27")]+)[\x27"]?\)?;/gi`

against the current css, fetches each matched import URL (resolved with
`safeResolve`), recursively inlines the fetched body, and replaces the
matched statement text (`String.replace`, first occurrence) with the
inlined body; a fetch failure is caught and the statement is replaced
with the empty string.  Because the regex object is shared, its
`lastIndex` is global state threaded through every call, including the
recursive ones: `exec` starts searching at `lastIndex`, sets it past the
match on success, and resets it to `0` on failure; the early
`if (!css) return css` path leaves it untouched.  The model passes
`lastIndex` in and out explicitly (`ri`), and the recursion is
fuel-indexed (the theorems establish that some fuel suffices, which is
the termination claim).  One regex corner is simplified: the give-back
of `\s+` into the capture group (reachable only when the mandatory `;`
cannot otherwise be found after well-formed whitespace) is not modelled;
the inputs in the theorems below never reach it. -/

namespace CssParser

/-- The `[^\x27")]` character class of `IMPORT_REGEX`. -/
def importClassChar (c : Char) : Bool :=
  ¬(c = '"' ∨ c = URLModel.squote ∨ c = ')')

/-- Index of the last `;` of a fragment, for the greedy group's
give-back: the regex engine shrinks the group from the right until the
mandatory `;` follows, and in-class characters can satisfy neither
optional quote nor optional paren, so the group ends right before its
last `;`. -/
def lastSemi : List Char → Option Nat
  | [] => none
  | c :: rest =>
    match lastSemi rest with
    | some i => some (i + 1)
    | none => if c = ';' then some 0 else none

/-- Does the first character open the optional quote `[\x27"]?`
(1 consumed if so)? -/
def importTailQ (r : List Char) : Nat :=
  match r with
  | c :: _ => if c = '"' ∨ c = URLModel.squote then 1 else 0
  | [] => 0

/-- After the greedy group: optional closing quote, optional `)`, then
the mandatory `;` — how many characters that consumes, if it matches. -/
def importTailFull (r2 : List Char) : Option Nat :=
  match r2 with
  | c :: rest2 =>
    if c = '"' ∨ c = URLModel.squote then
      match rest2 with
      | ')' :: ';' :: _ => some 3
      | ';' :: _ => some 2
      | _ => none
    else if c = ')' then
      match rest2 with
      | ';' :: _ => some 2
      | _ => none
    else if c = ';' then some 1
    else none
  | [] => none

/-- Group `R` (greedy) followed by `r2`: try the full group first, else
give characters back until the last `;` inside `R`. -/
def importTailGroup (q : Nat) (R r2 : List Char) : Option (List Char × Nat) :=
  if R.isEmpty then none
  else
    match importTailFull r2 with
    | some extra => some (R, q + R.length + extra)
    | none =>
      match lastSemi R with
      | some k => if k = 0 then none else some (R.take k, q + k + 1)
      | none => none

/-- After the optional quote: split off the greedy group. -/
def importTailCore (q : Nat) (r1 : List Char) : Option (List Char × Nat) :=
  importTailGroup q (r1.takeWhile importClassChar)
    (r1.drop (r1.takeWhile importClassChar).length)

/-- `[\x27"]?([^\x27")]+)[\x27"]?\)?;` with the group's backtracking:
returns the group and the characters consumed (through the `;`). -/
def importTail (r : List Char) : Option (List Char × Nat) :=
  importTailCore (importTailQ r) (r.drop (importTailQ r))

/-- `IMPORT_REGEX` at the current position: `@import` (case-insensitive),
mandatory whitespace, the optional `url(` (tried greedily, backtracked
when the tail fails), then the quoted group and `;`.  Returns the group
and the total match length. -/
def importStmtWs (rest : List Char) : List Char :=
  rest.takeWhile URLModel.isSpaceChar

/-- After the whitespace: the optional `url(` (greedy, backtracked when
the tail under it fails), then the quoted group and `;`. -/
def importStmtBody (r1 : List Char) : Option (List Char × Nat) :=
  match Rewrite.matchLitCI "url(".toList r1 with
  | some r2 =>
    match importTail r2 with
    | some g => some (g.1, 4 + g.2)
    | none => importTail r1
  | none => importTail r1

def importStmtAt (s : List Char) : Option (List Char × Nat) :=
  match Rewrite.matchLitCI "@import".toList s with
  | none => none
  | some rest =>
    if (importStmtWs rest).isEmpty then none
    else
      match importStmtBody (rest.drop (importStmtWs rest).length) with
      | some g => some (g.1, 7 + (importStmtWs rest).length + g.2)
      | none => none

/-- Scan for the first match at a position `≥ pos` (the suffix argument
is the css from `pos` on).  Returns group, match start, match length. -/
def findImportAux : List Char → Nat → Option (List Char × Nat × Nat)
  | [], _ => none
  | c :: rest, pos =>
    match importStmtAt (c :: rest) with
    | some g => some (g.1, pos, g.2)
    | none => findImportAux rest (pos + 1)

/-- `IMPORT_REGEX.exec(css)` with `lastIndex = ri`: first match starting
at or after `ri`. -/
def findImportFrom (css : List Char) (ri : Nat) :
    Option (List Char × Nat × Nat) :=
  findImportAux (css.drop ri) ri

/-- The `while ((match = IMPORT_REGEX.exec(css)) !== null)` loop of
`inlineImports`, fuel-indexed.  On `exec` failure the shared `lastIndex`
resets to 0 and the loop returns the current css.  On a match, the import
URL is resolved and fetched; a failed fetch (`F` returns `none`)
is caught and the match text replaced by the empty string; otherwise the
fetched body is recursively inlined — the nested `if (!css) return css`
entry check keeps `lastIndex` untouched for an empty body — and the
match text is replaced by the result.  Returns the final css and the
regex state, or `none` when out of fuel. -/
def inlineImportsLoop (F : List Char → Option (List Char)) :
    Nat → List Char → List Char → Nat → Option (List Char × Nat)
  | 0, _, _, _ => none
  | fuel + 1, css, base, ri =>
    match findImportFrom css ri with
    | none => some (css, 0)
    | some (g, start, len) =>
      match F (Rewrite.safeResolve g base) with
      | none =>
        inlineImportsLoop F fuel
          (Rewrite.replaceFirst css ((css.drop start).take len) []) base
          (start + len)
      | some imported =>
        match (if imported.isEmpty then some (imported, start + len)
               else inlineImportsLoop F fuel imported
                 (Rewrite.safeResolve g base) (start + len)) with
        | none => none
        | some (cleaned, ri3) =>
          inlineImportsLoop F fuel
            (Rewrite.replaceFirst css ((css.drop start).take len) cleaned)
            base ri3

/-- `inlineImports(css, baseUrl, fetcherFn)` with the shared regex at
state `ri`. -/
def inlineImports (F : List Char → Option (List Char)) (fuel : Nat)
    (css base : List Char) (ri : Nat) : Option (List Char × Nat) :=
  if css.isEmpty then some (css, ri) else inlineImportsLoop F fuel css base ri

/-- One level of a non-cyclic import chain: css text `pre`, an
`@import url(\x27…\x27);` statement for `url`, css text `post`; `abs` is
the URL the statement resolves to. -/
structure ChainLevel where
  pre : List Char
  url : List Char
  abs : List Char
  post : List Char

/-- The import statement `@import url(\x27u\x27);`. -/
def importStmt (u : List Char) : List Char :=
  "@import url(".toList ++
    URLModel.squote :: (u ++ URLModel.squote :: ')' :: ';' :: [])

/-- The css served at a chain position: the head level's text, or the
leaf body below the last level. -/
def chainCss : List ChainLevel → List Char → List Char
  | [], L => L
  | lv :: _, _ => lv.pre ++ (importStmt lv.url ++ lv.post)

/-- The fully inlined chain: each import statement replaced by the
recursively inlined body it fetches. -/
def inlined : List ChainLevel → List Char → List Char
  | [], L => L
  | lv :: rest, L => lv.pre ++ (inlined rest L ++ lv.post)

/-- The fetcher serves each level's resolved URL with the next chain
position's css. -/
def envOK (F : List Char → Option (List Char)) :
    List ChainLevel → List Char → Prop
  | [], _ => True
  | lv :: rest, L => F lv.abs = some (chainCss rest L) ∧ envOK F rest L

/-- No `@` anywhere: such a fragment hosts no `IMPORT_REGEX` match. -/
def atFree (s : List Char) : Prop := ∀ c ∈ s, c ≠ '@'

/-- A hygienic chain level: surrounding text free of `@`, a non-empty import
URL inside the regex's group class, free of `@`, and absolute
(so `safeResolve` ignores the base and yields `abs`). -/
def levelOK (lv : ChainLevel) : Prop :=
  atFree lv.pre ∧ atFree lv.post ∧ lv.url ≠ [] ∧ atFree lv.url ∧
    (∀ c ∈ lv.url, importClassChar c = true) ∧
    (URLModel.parseAbsoluteURL lv.url).map URLModel.serializeURL =
      some lv.abs

def levelsOK : List ChainLevel → Prop
  | [] => True
  | lv :: rest => levelOK lv ∧ levelsOK rest

/-- Length of the head level\x27s leading text (0 for the leaf): the
regex state bound under which the head import is still found. -/
def headPre : List ChainLevel → Nat
  | [] => 0
  | lv :: _ => lv.pre.length

instance atFreeDec (s : List Char) : Decidable (atFree s) :=
  inferInstanceAs (Decidable (∀ c ∈ s, c ≠ '@'))

instance levelOKDec (lv : ChainLevel) : Decidable (levelOK lv) :=
  inferInstanceAs (Decidable (_ ∧ _ ∧ _ ∧ _ ∧ _ ∧ _))

instance levelsOKDec : (levels : List ChainLevel) →
    Decidable (levelsOK levels)
  | [] => .isTrue trivial
  | lv :: rest =>
    @instDecidableAnd _ _ (levelOKDec lv) (levelsOKDec rest)

instance envOKDec (F : List Char → Option (List Char)) :
    (levels : List ChainLevel) → (L : List Char) →
    Decidable (envOK F levels L)
  | [], _ => .isTrue trivial
  | lv :: rest, L =>
    @instDecidableAnd _ _ (inferInstance) (envOKDec F rest L)

end CssParser

namespace ResourceCache

theorem sumSizes_nil : sumSizes [] = 0 := rfl

theorem sumSizes_cons (p : String × CEntry) (m : List (String × CEntry)) :
    sumSizes (p :: m) = (p.2.size : Int) + sumSizes m := by
  simp [sumSizes]

theorem sumSizes_append (l₁ l₂ : List (String × CEntry)) :
    sumSizes (l₁ ++ l₂) = sumSizes l₁ + sumSizes l₂ := by
  simp [sumSizes]

theorem sumSizes_nonneg (m : List (String × CEntry)) : 0 ≤ sumSizes m := by
  induction m with
  | nil => simp [sumSizes]
  | cons p t ih => rw [sumSizes_cons]; positivity

theorem mapGet?_eq_none_iff {m : List (String × CEntry)} {k : String} :
    mapGet? m k = none ↔ ∀ p ∈ m, p.1 ≠ k := by
  simp [mapGet?, List.find?_eq_none]

theorem mapGet?_mapDelete_self (m : List (String × CEntry)) (k : String) :
    mapGet? (mapDelete m k) k = none := by
  rw [mapGet?_eq_none_iff]
  intro p hp
  have h := (List.mem_filter.1 hp).2
  simpa using h

theorem mapDelete_sublist (m : List (String × CEntry)) (k : String) :
    (mapDelete m k).Sublist m := List.filter_sublist m

theorem mapDelete_eq_self {m : List (String × CEntry)} {k : String}
    (h : mapGet? m k = none) : mapDelete m k = m := by
  rw [mapGet?_eq_none_iff] at h
  refine List.filter_eq_self.2 (fun p hp => ?_)
  simpa using h p hp

theorem mapGet?_mapDelete_ne {m : List (String × CEntry)} {k k' : String}
    (h : k' ≠ k) : mapGet? (mapDelete m k) k' = mapGet? m k' := by
  induction m with
  | nil => rfl
  | cons hd tl ih =>
    by_cases hk : hd.1 = k
    · have h1 : mapDelete (hd :: tl) k = mapDelete tl k := by
        simp [mapDelete, List.filter_cons, hk]
      have h2 : (hd.1 == k') = false := by
        simp [hk]; exact fun hcon => h hcon.symm
      rw [h1, ih]
      simp [mapGet?, List.find?_cons, h2]
    · have h1 : mapDelete (hd :: tl) k = hd :: mapDelete tl k := by
        simp [mapDelete, List.filter_cons, hk]
      rw [h1]
      by_cases hk' : hd.1 = k'
      · simp [mapGet?, List.find?_cons, hk']
      · have h2 : (hd.1 == k') = false := by simp [hk']
        simp only [mapGet?, List.find?_cons, h2]
        exact ih

theorem keys_notMem_of_get_none {m : List (String × CEntry)} {k : String}
    (h : mapGet? m k = none) : k ∉ m.map Prod.fst := by
  rw [mapGet?_eq_none_iff] at h
  intro hmem
  obtain ⟨p, hp, hpk⟩ := List.mem_map.1 hmem
  exact h p hp hpk

theorem mapHas_false_of_get_none {m : List (String × CEntry)} {k : String}
    (h : mapGet? m k = none) : mapHas m k = false := by
  rw [mapGet?_eq_none_iff] at h
  simp only [mapHas, List.any_eq_false]
  intro p hp
  simpa using h p hp

theorem mapSet_append {m : List (String × CEntry)} {k : String} {e : CEntry}
    (h : mapGet? m k = none) : mapSet m k e = m ++ [(k, e)] := by
  simp [mapSet, mapHas_false_of_get_none h]

theorem touchKey_eq {m : List (String × CEntry)} {k : String} {e : CEntry}
    (h : mapGet? m k = some e) : touchKey m k = mapDelete m k ++ [(k, e)] := by
  simp only [touchKey, h]
  exact mapSet_append (mapGet?_mapDelete_self m k)

theorem sumSizes_delete {m : List (String × CEntry)} {k : String} {e : CEntry}
    (hnd : (m.map Prod.fst).Nodup) (hget : mapGet? m k = some e) :
    sumSizes (mapDelete m k) = sumSizes m - (e.size : Int) := by
  induction m with
  | nil => simp [mapGet?] at hget
  | cons hd tl ih =>
    rw [List.map_cons, List.nodup_cons] at hnd
    by_cases hk : hd.1 = k
    · have he : e = hd.2 := by
        simp [mapGet?, List.find?_cons, hk] at hget
        exact hget.symm
      have htl : mapGet? tl k = none := by
        rw [mapGet?_eq_none_iff]
        intro p hp hpk
        have : hd.1 ∈ List.map Prod.fst tl := by
          rw [hk, ← hpk]
          exact List.mem_map.2 ⟨p, hp, rfl⟩
        exact hnd.1 this
      have h1 : mapDelete (hd :: tl) k = mapDelete tl k := by
        simp [mapDelete, List.filter_cons, hk]
      rw [h1, mapDelete_eq_self htl, sumSizes_cons, he]
      ring
    · have h2 : (hd.1 == k) = false := by simp [hk]
      have hget' : mapGet? tl k = some e := by
        simpa [mapGet?, List.find?_cons, h2] using hget
      have h1 : mapDelete (hd :: tl) k = hd :: mapDelete tl k := by
        simp [mapDelete, List.filter_cons, hk]
      rw [h1, sumSizes_cons, sumSizes_cons, ih hnd.2 hget']
      ring

theorem nodup_delete {m : List (String × CEntry)} {k : String}
    (h : (m.map Prod.fst).Nodup) : ((mapDelete m k).map Prod.fst).Nodup :=
  List.Nodup.sublist (List.Sublist.map Prod.fst (mapDelete_sublist m k)) h

theorem mapGet?_append_of_none {l₁ l₂ : List (String × CEntry)} {k : String}
    (h : mapGet? l₁ k = none) : mapGet? (l₁ ++ l₂) k = mapGet? l₂ k := by
  have h' : l₁.find? (fun p => p.1 == k) = none := by
    simpa [mapGet?] using h
  simp [mapGet?, List.find?_append, h']

theorem mapGet?_append_sing {l : List (String × CEntry)} {k : String} {e : CEntry}
    (h : mapGet? l k = none) : mapGet? (l ++ [(k, e)]) k = some e := by
  rw [mapGet?_append_of_none h]
  simp [mapGet?, List.find?_cons]

theorem evict_sum_eq : ∀ (m : List (String × CEntry)) (b : Int) (mi mb : Nat),
    b = sumSizes m →
    (evictIfNeeded m b mi mb).2 = sumSizes (evictIfNeeded m b mi mb).1 := by
  intro m
  induction m with
  | nil => intro b mi mb hb; simpa [evictIfNeeded, sumSizes] using hb
  | cons hd tl ih =>
    intro b mi mb hb
    rw [evictIfNeeded]
    split
    · apply ih
      rw [hb, sumSizes_cons]; ring
    · exact hb

theorem evict_suffix : ∀ (m : List (String × CEntry)) (b : Int) (mi mb : Nat),
    ∃ l, m = l ++ (evictIfNeeded m b mi mb).1 := by
  intro m
  induction m with
  | nil => intro b mi mb; exact ⟨[], rfl⟩
  | cons hd tl ih =>
    intro b mi mb
    rw [evictIfNeeded]
    split
    · obtain ⟨l, hl⟩ := ih (b - (hd.2.size : Int)) mi mb
      exact ⟨hd :: l, by simp [← hl]⟩
    · exact ⟨[], rfl⟩

theorem evict_bounds : ∀ (m : List (String × CEntry)) (b : Int) (mi mb : Nat),
    b = sumSizes m →
    (evictIfNeeded m b mi mb).1.length ≤ mi ∧
      (evictIfNeeded m b mi mb).2 ≤ (mb : Int) := by
  intro m
  induction m with
  | nil =>
    intro b mi mb hb
    rw [sumSizes_nil] at hb
    subst hb
    refine ⟨by simp [evictIfNeeded], ?_⟩
    simp only [evictIfNeeded]
    exact Int.ofNat_nonneg mb
  | cons hd tl ih =>
    intro b mi mb hb
    rw [evictIfNeeded]
    split
    · apply ih
      rw [hb, sumSizes_cons]; ring
    · rename_i hcond
      push_neg at hcond
      exact ⟨by simpa using hcond.1, by simpa using hcond.2⟩

theorem evict_noop {m : List (String × CEntry)} {b : Int} {mi mb : Nat}
    (h1 : m.length ≤ mi) (h2 : b ≤ (mb : Int)) :
    evictIfNeeded m b mi mb = (m, b) := by
  cases m with
  | nil => rfl
  | cons hd tl =>
    rw [evictIfNeeded, if_neg]
    push_neg
    exact ⟨by omega, h2⟩

theorem evict_last : ∀ (l : List (String × CEntry)) (x : String × CEntry)
    (mi mb : Nat), 1 ≤ mi → (x.2.size : Int) ≤ (mb : Int) →
    ∃ l', evictIfNeeded (l ++ [x]) (sumSizes (l ++ [x])) mi mb =
        (l' ++ [x], sumSizes (l' ++ [x])) ∧ ∃ l₀, l = l₀ ++ l' := by
  intro l
  induction l with
  | nil =>
    intro x mi mb hmi hx
    refine ⟨[], ?_, ⟨[], rfl⟩⟩
    simp only [List.nil_append]
    apply evict_noop
    · simpa using hmi
    · rw [sumSizes_cons, sumSizes_nil]
      omega
  | cons hd tl ih =>
    intro x mi mb hmi hx
    rw [List.cons_append, evictIfNeeded]
    split
    · obtain ⟨l', heq, l₀, hl₀⟩ := ih x mi mb hmi hx
      have hb : sumSizes (hd :: (tl ++ [x])) - (hd.2.size : Int)
          = sumSizes (tl ++ [x]) := by
        rw [sumSizes_cons]; ring
      rw [hb, heq]
      exact ⟨l', rfl, hd :: l₀, by simp [hl₀]⟩
    · exact ⟨hd :: tl, by simp, [], rfl⟩

theorem evict_step {hd : String × CEntry} {rest : List (String × CEntry)}
    {mi mb : Nat} (hlen : rest.length = mi) (hmi : 1 ≤ mi)
    (hbytes : sumSizes (hd :: rest) ≤ (mb : Int)) :
    evictIfNeeded (hd :: rest) (sumSizes (hd :: rest)) mi mb
      = (rest, sumSizes rest) := by
  rw [evictIfNeeded, if_pos]
  · have hb : sumSizes (hd :: rest) - (hd.2.size : Int) = sumSizes rest := by
      rw [sumSizes_cons]; ring
    rw [hb]
    apply evict_noop (by omega)
    have h0 : (0 : Int) ≤ (hd.2.size : Int) := Int.ofNat_nonneg _
    have hc := sumSizes_cons hd rest
    omega
  · left; simp [hlen]

theorem mapGet?_append (l₁ l₂ : List (String × CEntry)) (k : String) :
    mapGet? (l₁ ++ l₂) k = (mapGet? l₁ k).or (mapGet? l₂ k) := by
  cases h : l₁.find? (fun p => p.1 == k) <;>
    simp [mapGet?, List.find?_append, h]

theorem mapGet?_sing_ne {k k' : String} {e : CEntry} (h : k' ≠ k) :
    mapGet? [(k, e)] k' = none := by
  have hf : (k == k') = false := by
    rw [beq_eq_false_iff_ne]
    exact fun hc => h hc.symm
  simp [mapGet?, List.find?_cons, hf]

theorem sumSizes_touch {m : List (String × CEntry)} {k : String} {e : CEntry}
    (hnd : (m.map Prod.fst).Nodup) (hget : mapGet? m k = some e) :
    sumSizes (touchKey m k) = sumSizes m := by
  rw [touchKey_eq hget, sumSizes_append, sumSizes_delete hnd hget,
    sumSizes_cons, sumSizes_nil]
  ring

theorem nodup_append_fresh {l : List (String × CEntry)} {k : String} {e : CEntry}
    (hfresh : mapGet? l k = none) (hnd : (l.map Prod.fst).Nodup) :
    ((l ++ [(k, e)]).map Prod.fst).Nodup := by
  rw [List.map_append, List.map_cons, List.map_nil, List.nodup_append]
  refine ⟨hnd, List.nodup_singleton k, fun a ha hb => ?_⟩
  have : a = k := by simpa using hb
  subst this
  exact keys_notMem_of_get_none hfresh ha

theorem nodup_touch {m : List (String × CEntry)} {k : String}
    (hnd : (m.map Prod.fst).Nodup) : ((touchKey m k).map Prod.fst).Nodup := by
  cases hget : mapGet? m k with
  | none => simpa [touchKey, hget] using hnd
  | some e =>
    rw [touchKey_eq hget]
    exact nodup_append_fresh (mapGet?_mapDelete_self m k) (nodup_delete hnd)

theorem mapGet?_touch_self {m : List (String × CEntry)} {k : String} {e : CEntry}
    (hget : mapGet? m k = some e) : mapGet? (touchKey m k) k = some e := by
  rw [touchKey_eq hget]
  exact mapGet?_append_sing (mapGet?_mapDelete_self m k)

theorem mapGet?_touch_ne {m : List (String × CEntry)} {k k' : String}
    (h : k' ≠ k) : mapGet? (touchKey m k) k' = mapGet? m k' := by
  cases hget : mapGet? m k with
  | none => simp [touchKey, hget]
  | some e =>
    rw [touchKey_eq hget, mapGet?_append, mapGet?_mapDelete_ne h,
      mapGet?_sing_ne h]
    cases mapGet? m k' <;> rfl

theorem WF_of_evict (mi mb : Nat) {m : List (String × CEntry)} {b : Int}
    (hb : b = sumSizes m) (hnd : (m.map Prod.fst).Nodup) :
    (evictIfNeeded m b mi mb).2 = sumSizes (evictIfNeeded m b mi mb).1 ∧
      (((evictIfNeeded m b mi mb).1.map Prod.fst).Nodup) := by
  refine ⟨evict_sum_eq m b mi mb hb, ?_⟩
  obtain ⟨l₀, hl₀⟩ := evict_suffix m b mi mb
  have hsub : (evictIfNeeded m b mi mb).1.Sublist m := by
    conv_rhs => rw [hl₀]
    exact List.sublist_append_right l₀ _
  exact List.Nodup.sublist (hsub.map Prod.fst) hnd

theorem WF_get {st : CacheState} (hwf : WF st) (k : String) (now mi mb : Nat) :
    WF (get st k now mi mb).2 := by
  by_cases hk : k = ""
  · simpa [get, hk] using hwf
  cases hget : mapGet? st.cacheMap k with
  | some entry =>
    by_cases hexp : entryExpired entry now = true
    · have hst : (get st k now mi mb).2 =
          ⟨mapDelete st.cacheMap k, st.currentBytes - (entry.size : Int),
            removeFromDisk st.disk k⟩ := by
        simp [get, hk, hget, hexp]
      rw [hst]
      refine ⟨?_, ?_⟩
      · show st.currentBytes - (entry.size : Int) =
          sumSizes (mapDelete st.cacheMap k)
        rw [sumSizes_delete hwf.keys_nodup hget, hwf.bytes_eq]
      · exact nodup_delete hwf.keys_nodup
    · have hexp' : entryExpired entry now = false := by simpa using hexp
      have hst : (get st k now mi mb).2 =
          ⟨touchKey st.cacheMap k, st.currentBytes, st.disk⟩ := by
        simp [get, hk, hget, hexp']
      rw [hst]
      refine ⟨?_, ?_⟩
      · show st.currentBytes = sumSizes (touchKey st.cacheMap k)
        rw [sumSizes_touch hwf.keys_nodup hget, hwf.bytes_eq]
      · exact nodup_touch hwf.keys_nodup
  | none =>
    cases hdisk : loadFromDisk st.disk k with
    | none =>
      have hst : (get st k now mi mb).2 = st := by simp [get, hk, hget, hdisk]
      rw [hst]; exact hwf
    | some dv =>
      have hm1 : mapSet st.cacheMap k ⟨dv, estimateSize dv, none⟩ =
          st.cacheMap ++ [(k, ⟨dv, estimateSize dv, none⟩)] := mapSet_append hget
      have hb1 : st.currentBytes + (estimateSize dv : Int) =
          sumSizes (st.cacheMap ++ [(k, ⟨dv, estimateSize dv, none⟩)]) := by
        rw [sumSizes_append, sumSizes_cons, sumSizes_nil, hwf.bytes_eq]
        ring
      have hnd1 := nodup_append_fresh (e := ⟨dv, estimateSize dv, none⟩) hget
        hwf.keys_nodup
      have hev := WF_of_evict mi mb hb1 hnd1
      have hst : (get st k now mi mb).2 =
          ⟨(evictIfNeeded (st.cacheMap ++ [(k, ⟨dv, estimateSize dv, none⟩)])
              (st.currentBytes + (estimateSize dv : Int)) mi mb).1,
            (evictIfNeeded (st.cacheMap ++ [(k, ⟨dv, estimateSize dv, none⟩)])
              (st.currentBytes + (estimateSize dv : Int)) mi mb).2,
            st.disk⟩ := by
        simp [get, hk, hget, hdisk, hm1]
      rw [hst]
      exact ⟨hev.1, hev.2⟩

theorem set_preEvict {st : CacheState} (k : String) (v : CacheVal)
    (ttl now mi mb : Nat) (hwf : WF st) (hk : k ≠ "") :
    ∃ l, mapGet? l k = none ∧ (l.map Prod.fst).Nodup ∧
      (set st k v ttl now mi mb).2.cacheMap =
        (evictIfNeeded (l ++ [(k, ⟨v, estimateSize v,
            if ttl ≠ 0 then some (now + ttl) else none⟩)])
          (sumSizes (l ++ [(k, ⟨v, estimateSize v,
            if ttl ≠ 0 then some (now + ttl) else none⟩)])) mi mb).1 ∧
      (set st k v ttl now mi mb).2.currentBytes =
        (evictIfNeeded (l ++ [(k, ⟨v, estimateSize v,
            if ttl ≠ 0 then some (now + ttl) else none⟩)])
          (sumSizes (l ++ [(k, ⟨v, estimateSize v,
            if ttl ≠ 0 then some (now + ttl) else none⟩)])) mi mb).2 := by
  cases hprev : mapGet? st.cacheMap k with
  | some prev =>
    refine ⟨mapDelete st.cacheMap k, mapGet?_mapDelete_self st.cacheMap k,
      nodup_delete hwf.keys_nodup, ?_⟩
    have hb : st.currentBytes - (prev.size : Int) + (estimateSize v : Int) =
        sumSizes (mapDelete st.cacheMap k ++ [(k, ⟨v, estimateSize v,
          if ttl ≠ 0 then some (now + ttl) else none⟩)]) := by
      rw [sumSizes_append, sumSizes_cons, sumSizes_nil,
        sumSizes_delete hwf.keys_nodup hprev, hwf.bytes_eq]
      ring
    constructor <;>
      simp [set, hk, hprev, mapSet_append (mapGet?_mapDelete_self st.cacheMap k),
        hb]
  | none =>
    refine ⟨st.cacheMap, hprev, hwf.keys_nodup, ?_⟩
    have hb : st.currentBytes + (estimateSize v : Int) =
        sumSizes (st.cacheMap ++ [(k, ⟨v, estimateSize v,
          if ttl ≠ 0 then some (now + ttl) else none⟩)]) := by
      rw [sumSizes_append, sumSizes_cons, sumSizes_nil, hwf.bytes_eq]
      ring
    constructor <;> simp [set, hk, hprev, mapSet_append hprev, hb]

theorem WF_set {st : CacheState} (hwf : WF st) (k : String) (v : CacheVal)
    (ttl now mi mb : Nat) : WF (set st k v ttl now mi mb).2 := by
  by_cases hk : k = ""
  · simpa [set, hk] using hwf
  obtain ⟨l, hlk, hlnd, hmap, hbytes⟩ := set_preEvict k v ttl now mi mb hwf hk
  have hev := WF_of_evict mi mb rfl
    (nodup_append_fresh (e := ⟨v, estimateSize v,
      if ttl ≠ 0 then some (now + ttl) else none⟩) hlk hlnd)
  refine ⟨?_, ?_⟩
  · rw [hmap, hbytes]; exact hev.1
  · rw [hmap]; exact hev.2

theorem set_bounds {st : CacheState} (hwf : WF st) {k : String} (hk : k ≠ "")
    (v : CacheVal) (ttl now mi mb : Nat) :
    (set st k v ttl now mi mb).2.cacheMap.length ≤ mi ∧
      (set st k v ttl now mi mb).2.currentBytes ≤ (mb : Int) := by
  obtain ⟨l, hlk, hlnd, hmap, hbytes⟩ := set_preEvict k v ttl now mi mb hwf hk
  have hev := evict_bounds
    (l ++ [(k, ⟨v, estimateSize v, if ttl ≠ 0 then some (now + ttl) else none⟩)])
    (sumSizes (l ++ [(k, ⟨v, estimateSize v,
      if ttl ≠ 0 then some (now + ttl) else none⟩)])) mi mb rfl
  refine ⟨?_, ?_⟩
  · rw [hmap]; exact hev.1
  · rw [hbytes]; exact hev.2

theorem WF_del {st : CacheState} (hwf : WF st) (k : String) :
    WF (del st k).2 := by
  by_cases hk : k = ""
  · simpa [del, hk] using hwf
  cases hget : mapGet? st.cacheMap k with
  | some e =>
    have hst : (del st k).2 = ⟨mapDelete st.cacheMap k,
        st.currentBytes - (e.size : Int), removeFromDisk st.disk k⟩ := by
      simp [del, hk, hget]
    rw [hst]
    refine ⟨?_, ?_⟩
    · show st.currentBytes - (e.size : Int) = sumSizes (mapDelete st.cacheMap k)
      rw [sumSizes_delete hwf.keys_nodup hget, hwf.bytes_eq]
    · exact nodup_delete hwf.keys_nodup
  | none =>
    have hst : (del st k).2 = ⟨st.cacheMap, st.currentBytes,
        removeFromDisk st.disk k⟩ := by simp [del, hk, hget]
    rw [hst]
    exact ⟨hwf.bytes_eq, hwf.keys_nodup⟩

theorem WF_clear (st : CacheState) : WF (clear st) :=
  ⟨rfl, List.nodup_nil⟩

theorem sumSizes_filter_split (m : List (String × CEntry))
    (p : String × CEntry → Bool) :
    sumSizes (m.filter p) + sumSizes (m.filter fun x => !(p x)) = sumSizes m := by
  induction m with
  | nil => simp [sumSizes]
  | cons hd tl ih =>
    by_cases h : p hd = true <;>
      simp [List.filter_cons, h, sumSizes_cons] <;> omega

theorem WF_sweep {st : CacheState} (hwf : WF st) (now mi mb : Nat) :
    WF (sweep st now mi mb) := by
  have hsplit := sumSizes_filter_split st.cacheMap
    (fun p => entryExpired p.2 now)
  have hb : st.currentBytes -
      sumSizes (st.cacheMap.filter (fun p => entryExpired p.2 now)) =
      sumSizes (st.cacheMap.filter fun p => !(entryExpired p.2 now)) := by
    rw [hwf.bytes_eq]; omega
  have hnd : ((st.cacheMap.filter fun p =>
      !(entryExpired p.2 now)).map Prod.fst).Nodup :=
    List.Nodup.sublist ((List.filter_sublist _).map Prod.fst) hwf.keys_nodup
  have hev := WF_of_evict mi mb hb hnd
  have hst : sweep st now mi mb =
      ⟨(evictIfNeeded (st.cacheMap.filter fun p => !(entryExpired p.2 now))
          (st.currentBytes -
            sumSizes (st.cacheMap.filter (fun p => entryExpired p.2 now)))
          mi mb).1,
        (evictIfNeeded (st.cacheMap.filter fun p => !(entryExpired p.2 now))
          (st.currentBytes -
            sumSizes (st.cacheMap.filter (fun p => entryExpired p.2 now)))
          mi mb).2,
        st.disk⟩ := by
    simp [sweep, sumSizes]
  rw [hst]
  exact ⟨hev.1, hev.2⟩

theorem loadFromDisk_remove (d : List (String × DiskFile)) (k : String) :
    loadFromDisk (removeFromDisk d k) k = none := by
  have hf : (removeFromDisk d k).find? (fun p => p.1 == k) = none := by
    rw [List.find?_eq_none]
    intro p hp
    have h := (List.mem_filter.1 hp).2
    simpa using h
  simp [loadFromDisk, hf]

theorem mapGet?_prefix_none {l₀ l' : List (String × CEntry)} {k : String}
    (h : mapGet? (l₀ ++ l') k = none) : mapGet? l' k = none := by
  rw [mapGet?_eq_none_iff] at h ⊢
  exact fun p hp => h p (List.mem_append.2 (Or.inr hp))

theorem set_lookup {st : CacheState} (k : String) (v : CacheVal)
    (ttl now mi mb : Nat) (hwf : WF st) (hk : k ≠ "") (hmi : 1 ≤ mi)
    (hsize : estimateSize v ≤ mb) :
    mapGet? (set st k v ttl now mi mb).2.cacheMap k =
      some ⟨v, estimateSize v, if ttl ≠ 0 then some (now + ttl) else none⟩ := by
  obtain ⟨l, hlk, hlnd, hmap, hbytes⟩ := set_preEvict k v ttl now mi mb hwf hk
  obtain ⟨l', heq, l₀, hl₀⟩ := evict_last l
    (k, ⟨v, estimateSize v, if ttl ≠ 0 then some (now + ttl) else none⟩)
    mi mb hmi (by exact_mod_cast hsize)
  rw [hmap, heq]
  apply mapGet?_append_sing
  exact @mapGet?_prefix_none l₀ _ _ (hl₀ ▸ hlk)

theorem set_disk {st : CacheState} (k : String) (v : CacheVal)
    (ttl now mi mb : Nat) (hk : k ≠ "") (hsize : estimateSize v ≤ MAX_PERSIST_BYTES) :
    (set st k v ttl now mi mb).2.disk =
      diskSet st.disk k ⟨now, k, CacheVal.record v ttl now⟩ := by
  simp [set, hk, hsize]

theorem length_delete {m : List (String × CEntry)} {k : String} {e : CEntry}
    (hnd : (m.map Prod.fst).Nodup) (hget : mapGet? m k = some e) :
    (mapDelete m k).length = m.length - 1 := by
  induction m with
  | nil => simp [mapGet?] at hget
  | cons hd tl ih =>
    rw [List.map_cons, List.nodup_cons] at hnd
    by_cases hkk : hd.1 = k
    · have htl : mapGet? tl k = none := by
        rw [mapGet?_eq_none_iff]
        intro p hp hpk
        have : hd.1 ∈ List.map Prod.fst tl := by
          rw [hkk, ← hpk]
          exact List.mem_map.2 ⟨p, hp, rfl⟩
        exact hnd.1 this
      have h1 : mapDelete (hd :: tl) k = mapDelete tl k := by
        simp [mapDelete, List.filter_cons, hkk]
      rw [h1, mapDelete_eq_self htl]
      simp
    · have h2 : (hd.1 == k) = false := by simp [hkk]
      have hget' : mapGet? tl k = some e := by
        simpa [mapGet?, List.find?_cons, h2] using hget
      have h1 : mapDelete (hd :: tl) k = hd :: mapDelete tl k := by
        simp [mapDelete, List.filter_cons, hkk]
      have hpos : 0 < tl.length := by
        cases tl with
        | nil => simp [mapGet?] at hget'
        | cons a b => simp
      rw [h1]
      simp only [List.length_cons, ih hnd.2 hget']
      omega

end ResourceCache

/-- C2: for every key `k`, value `v` and positive `ttl`, `set(k, v, ttl)`
followed by `get(k)` before the TTL has elapsed returns exactly `v`; a
`get(k)` after the TTL has elapsed returns absent, the expired entry is
evicted from memory, and its disk copy is removed. -/
theorem cache_ttl_roundtrip (st : ResourceCache.CacheState) (k : String)
    (v : CacheVal) (ttl t1 t2 t3 : Nat) (hwf : ResourceCache.WF st)
    (hk : k ≠ "") (httl : 0 < ttl)
    (hsize : ResourceCache.estimateSize v ≤ ResourceCache.DEFAULT_MAX_BYTES)
    (hlive : t2 ≤ t1 + ttl) (hexp : t1 + ttl < t3) :
    (ResourceCache.get ((ResourceCache.set st k v ttl t1
        ResourceCache.DEFAULT_MAX_ITEMS ResourceCache.DEFAULT_MAX_BYTES).2) k t2
        ResourceCache.DEFAULT_MAX_ITEMS ResourceCache.DEFAULT_MAX_BYTES).1
      = some v ∧
    (ResourceCache.get ((ResourceCache.set st k v ttl t1
        ResourceCache.DEFAULT_MAX_ITEMS ResourceCache.DEFAULT_MAX_BYTES).2) k t3
        ResourceCache.DEFAULT_MAX_ITEMS ResourceCache.DEFAULT_MAX_BYTES).1
      = none ∧
    ResourceCache.mapGet?
      (ResourceCache.get ((ResourceCache.set st k v ttl t1
          ResourceCache.DEFAULT_MAX_ITEMS ResourceCache.DEFAULT_MAX_BYTES).2) k t3
          ResourceCache.DEFAULT_MAX_ITEMS ResourceCache.DEFAULT_MAX_BYTES).2.cacheMap
        k = none ∧
    ResourceCache.loadFromDisk
      (ResourceCache.get ((ResourceCache.set st k v ttl t1
          ResourceCache.DEFAULT_MAX_ITEMS ResourceCache.DEFAULT_MAX_BYTES).2) k t3
          ResourceCache.DEFAULT_MAX_ITEMS ResourceCache.DEFAULT_MAX_BYTES).2.disk
        k = none := by
  have httl' : ttl ≠ 0 := Nat.pos_iff_ne_zero.1 httl
  have hlk := ResourceCache.set_lookup k v ttl t1
    ResourceCache.DEFAULT_MAX_ITEMS ResourceCache.DEFAULT_MAX_BYTES hwf hk
    (by norm_num [ResourceCache.DEFAULT_MAX_ITEMS]) hsize
  rw [if_pos httl'] at hlk
  have hlive' : ResourceCache.entryExpired
      ⟨v, ResourceCache.estimateSize v, some (t1 + ttl)⟩ t2 = false := by
    simp only [ResourceCache.entryExpired]
    simp only [decide_eq_false_iff_not]
    omega
  have hexp' : ResourceCache.entryExpired
      ⟨v, ResourceCache.estimateSize v, some (t1 + ttl)⟩ t3 = true := by
    simp only [ResourceCache.entryExpired]
    simp only [decide_eq_true_eq]
    omega
  refine ⟨?_, ?_, ?_, ?_⟩
  · simp [ResourceCache.get, hk, hlk, hlive']
  · simp [ResourceCache.get, hk, hlk, hexp']
  · simp only [ResourceCache.get, if_neg hk, hlk, hexp', if_pos]
    exact ResourceCache.mapGet?_mapDelete_self _ k
  · simp only [ResourceCache.get, if_neg hk, hlk, hexp', if_pos]
    exact ResourceCache.loadFromDisk_remove _ k

/-- Witness for C2 at `k = "k"`, `v = "v"`, `ttl = 1000`, set at time 0,
read at times 500 and 2000, on the empty initial state. -/
theorem cache_ttl_roundtrip_witness :
    ResourceCache.WF ⟨[], 0, []⟩ ∧
    ((ResourceCache.get ((ResourceCache.set ⟨[], 0, []⟩ "k" (CacheVal.vstr "v")
        1000 0 ResourceCache.DEFAULT_MAX_ITEMS ResourceCache.DEFAULT_MAX_BYTES).2)
        "k" 500 ResourceCache.DEFAULT_MAX_ITEMS ResourceCache.DEFAULT_MAX_BYTES).1
      = some (CacheVal.vstr "v") ∧
    (ResourceCache.get ((ResourceCache.set ⟨[], 0, []⟩ "k" (CacheVal.vstr "v")
        1000 0 ResourceCache.DEFAULT_MAX_ITEMS ResourceCache.DEFAULT_MAX_BYTES).2)
        "k" 2000 ResourceCache.DEFAULT_MAX_ITEMS ResourceCache.DEFAULT_MAX_BYTES).1
      = none ∧
    ResourceCache.mapGet?
      (ResourceCache.get ((ResourceCache.set ⟨[], 0, []⟩ "k" (CacheVal.vstr "v")
          1000 0 ResourceCache.DEFAULT_MAX_ITEMS ResourceCache.DEFAULT_MAX_BYTES).2)
          "k" 2000 ResourceCache.DEFAULT_MAX_ITEMS
          ResourceCache.DEFAULT_MAX_BYTES).2.cacheMap "k" = none ∧
    ResourceCache.loadFromDisk
      (ResourceCache.get ((ResourceCache.set ⟨[], 0, []⟩ "k" (CacheVal.vstr "v")
          1000 0 ResourceCache.DEFAULT_MAX_ITEMS ResourceCache.DEFAULT_MAX_BYTES).2)
          "k" 2000 ResourceCache.DEFAULT_MAX_ITEMS
          ResourceCache.DEFAULT_MAX_BYTES).2.disk "k" = none) :=
  ⟨⟨rfl, List.nodup_nil⟩,
    cache_ttl_roundtrip ⟨[], 0, []⟩ "k" (CacheVal.vstr "v") 1000 0 500 2000
      ⟨rfl, List.nodup_nil⟩ (by decide) (by decide) (by decide) (by decide)
      (by decide)⟩

/-- C5: for a cache bounded to `N` items (with the byte ceiling not
binding), inserting an `(N+1)`-th item evicts exactly the entry at the
least-recently-used (front) end of the insertion-ordered map; a
successful `get` first moves the read entry to the most-recently-used
end, so the read item is not the front entry and is not the one removed
by the eviction triggered by the next insertion. -/
theorem cache_lru_eviction (st : ResourceCache.CacheState) (N B : Nat)
    (k knew : String) (e : ResourceCache.CEntry) (v : CacheVal)
    (t ttl t2 : Nat) (hwf : ResourceCache.WF st) (hN : 2 ≤ N)
    (hfull : st.cacheMap.length = N) (hk : k ≠ "")
    (hke : ResourceCache.mapGet? st.cacheMap k = some e)
    (hlive : ResourceCache.entryExpired e t = false) (hknew : knew ≠ "")
    (hfresh : ResourceCache.mapGet? st.cacheMap knew = none)
    (hbytes : ResourceCache.sumSizes st.cacheMap +
      (ResourceCache.estimateSize v : Int) ≤ (B : Int)) :
    (ResourceCache.get st k t N B).1 = some e.value ∧
    (ResourceCache.get st k t N B).2.cacheMap =
      ResourceCache.mapDelete st.cacheMap k ++ [(k, e)] ∧
    (∀ p, (ResourceCache.get st k t N B).2.cacheMap.head? = some p →
      p.1 ≠ k) ∧
    (ResourceCache.set (ResourceCache.get st k t N B).2 knew v ttl t2
        N B).2.cacheMap =
      (ResourceCache.get st k t N B).2.cacheMap.tail ++
        [(knew, ⟨v, ResourceCache.estimateSize v,
          if ttl ≠ 0 then some (t2 + ttl) else none⟩)] ∧
    ResourceCache.mapGet?
      (ResourceCache.set (ResourceCache.get st k t N B).2 knew v ttl t2
          N B).2.cacheMap k = some e := by
  have hne : knew ≠ k := fun hkk => by rw [hkk, hke] at hfresh; cases hfresh
  -- the touched state
  have hret : (ResourceCache.get st k t N B).1 = some e.value := by
    simp [ResourceCache.get, hk, hke, hlive]
  have hmap1 : (ResourceCache.get st k t N B).2.cacheMap =
      ResourceCache.mapDelete st.cacheMap k ++ [(k, e)] := by
    simp [ResourceCache.get, hk, hke, hlive,
      ResourceCache.touchKey_eq hke]
  have hb1 : (ResourceCache.get st k t N B).2.currentBytes =
      st.currentBytes := by
    simp [ResourceCache.get, hk, hke, hlive]
  have hdel_len : (ResourceCache.mapDelete st.cacheMap k).length = N - 1 := by
    rw [ResourceCache.length_delete hwf.keys_nodup hke, hfull]
  -- head of the touched map is a survivor of the delete, hence not k
  have hhead : ∀ p, (ResourceCache.get st k t N B).2.cacheMap.head? = some p →
      p.1 ≠ k := by
    intro p hp
    rw [hmap1] at hp
    cases hD : ResourceCache.mapDelete st.cacheMap k with
    | nil => rw [hD] at hdel_len; simp at hdel_len; omega
    | cons d0 ds =>
      rw [hD] at hp
      simp at hp
      have hmem : p ∈ ResourceCache.mapDelete st.cacheMap k := by
        rw [hD]; simp [hp]
      have := (List.mem_filter.1 hmem).2
      simpa using this
  refine ⟨hret, hmap1, hhead, ?_, ?_⟩
  all_goals {
    have hfresh1 : ResourceCache.mapGet?
        (ResourceCache.get st k t N B).2.cacheMap knew = none := by
      rw [hmap1, ResourceCache.mapGet?_append,
        ResourceCache.mapGet?_mapDelete_ne hne, hfresh,
        ResourceCache.mapGet?_sing_ne hne]
      rfl
    have hsum1 : ResourceCache.sumSizes
        (ResourceCache.get st k t N B).2.cacheMap =
        ResourceCache.sumSizes st.cacheMap := by
      rw [hmap1, ResourceCache.sumSizes_append,
        ResourceCache.sumSizes_delete hwf.keys_nodup hke,
        ResourceCache.sumSizes_cons, ResourceCache.sumSizes_nil]
      ring
    -- the pre-eviction map of the set
    obtain ⟨d0, ds, hD⟩ : ∃ d0 ds,
        ResourceCache.mapDelete st.cacheMap k = d0 :: ds := by
      cases hD : ResourceCache.mapDelete st.cacheMap k with
      | nil => rw [hD] at hdel_len; simp at hdel_len; omega
      | cons d0 ds => exact ⟨d0, ds, rfl⟩
    have hshape : (ResourceCache.get st k t N B).2.cacheMap ++
        [(knew, (⟨v, ResourceCache.estimateSize v,
          if ttl ≠ 0 then some (t2 + ttl) else none⟩ : ResourceCache.CEntry))] =
        d0 :: (ds ++ [(k, e)] ++ [(knew, ⟨v, ResourceCache.estimateSize v,
          if ttl ≠ 0 then some (t2 + ttl) else none⟩)]) := by
      rw [hmap1, hD]; simp
    have hrest_len : (ds ++ [(k, e)] ++
        [(knew, (⟨v, ResourceCache.estimateSize v,
          if ttl ≠ 0 then some (t2 + ttl) else none⟩ : ResourceCache.CEntry))]).length
        = N := by
      have : ds.length = N - 2 := by
        have := hdel_len
        rw [hD] at this
        simp at this
        omega
      simp [this]
      omega
    have hsum_pre : (ResourceCache.get st k t N B).2.currentBytes +
        (ResourceCache.estimateSize v : Int) =
        ResourceCache.sumSizes ((ResourceCache.get st k t N B).2.cacheMap ++
          [(knew, ⟨v, ResourceCache.estimateSize v,
            if ttl ≠ 0 then some (t2 + ttl) else none⟩)]) := by
      rw [ResourceCache.sumSizes_append, hb1, hwf.bytes_eq, hsum1,
        ResourceCache.sumSizes_cons, ResourceCache.sumSizes_nil]
      ring
    have hsum_le : ResourceCache.sumSizes
        ((ResourceCache.get st k t N B).2.cacheMap ++
          [(knew, ⟨v, ResourceCache.estimateSize v,
            if ttl ≠ 0 then some (t2 + ttl) else none⟩)]) ≤ (B : Int) := by
      rw [ResourceCache.sumSizes_append, hsum1, ResourceCache.sumSizes_cons,
        ResourceCache.sumSizes_nil]
      dsimp only
      have hb2 := hbytes
      omega
    have hevict := @ResourceCache.evict_step d0 _ _ _
      hrest_len (by omega) (hshape ▸ hsum_le)
    have hset : (ResourceCache.set (ResourceCache.get st k t N B).2 knew v ttl t2
        N B).2.cacheMap =
        (ds ++ [(k, e)] ++ [(knew, ⟨v, ResourceCache.estimateSize v,
          if ttl ≠ 0 then some (t2 + ttl) else none⟩)]) := by
      have hmain : (ResourceCache.set (ResourceCache.get st k t N B).2 knew v
          ttl t2 N B).2.cacheMap =
          (ResourceCache.evictIfNeeded
            ((ResourceCache.get st k t N B).2.cacheMap ++
              [(knew, ⟨v, ResourceCache.estimateSize v,
                if ttl ≠ 0 then some (t2 + ttl) else none⟩)])
            ((ResourceCache.get st k t N B).2.currentBytes +
              (ResourceCache.estimateSize v : Int)) N B).1 := by
        simp [ResourceCache.set, hknew, hfresh1,
          ResourceCache.mapSet_append hfresh1]
      rw [hmain, hsum_pre, hshape, hevict]
    first
    | (rw [hset, hmap1, hD]; simp)
    | (rw [hset, ResourceCache.mapGet?_append, ResourceCache.mapGet?_append]
       have hds : ResourceCache.mapGet? ds k = none := by
         rw [ResourceCache.mapGet?_eq_none_iff]
         intro p hp
         have hmem : p ∈ ResourceCache.mapDelete st.cacheMap k := by
           rw [hD]; exact List.mem_cons_of_mem d0 hp
         have := (List.mem_filter.1 hmem).2
         simpa using this
       rw [hds]
       simp [ResourceCache.mapGet?, List.find?_cons])
  }

/-- Witness for C5: a two-entry cache bounded to two items; the older
entry "a" is read, then inserting "c" evicts "b" and keeps "a". -/
theorem cache_lru_eviction_witness :
    ResourceCache.WF ⟨[("a", ⟨CacheVal.vstr "x", 1, none⟩),
        ("b", ⟨CacheVal.vstr "y", 1, none⟩)], 2, []⟩ ∧
    ((ResourceCache.get ⟨[("a", ⟨CacheVal.vstr "x", 1, none⟩),
        ("b", ⟨CacheVal.vstr "y", 1, none⟩)], 2, []⟩ "a" 0 2 100).1
      = some (CacheVal.vstr "x") ∧
    (ResourceCache.get ⟨[("a", ⟨CacheVal.vstr "x", 1, none⟩),
        ("b", ⟨CacheVal.vstr "y", 1, none⟩)], 2, []⟩ "a" 0 2 100).2.cacheMap =
      ResourceCache.mapDelete [("a", ⟨CacheVal.vstr "x", 1, none⟩),
        ("b", ⟨CacheVal.vstr "y", 1, none⟩)] "a" ++
        [("a", ⟨CacheVal.vstr "x", 1, none⟩)] ∧
    (∀ p, (ResourceCache.get ⟨[("a", ⟨CacheVal.vstr "x", 1, none⟩),
        ("b", ⟨CacheVal.vstr "y", 1, none⟩)], 2, []⟩ "a" 0 2
        100).2.cacheMap.head? = some p → p.1 ≠ "a") ∧
    (ResourceCache.set (ResourceCache.get ⟨[("a", ⟨CacheVal.vstr "x", 1, none⟩),
        ("b", ⟨CacheVal.vstr "y", 1, none⟩)], 2, []⟩ "a" 0 2 100).2 "c"
        (CacheVal.vstr "z") 50 1 2 100).2.cacheMap =
      (ResourceCache.get ⟨[("a", ⟨CacheVal.vstr "x", 1, none⟩),
        ("b", ⟨CacheVal.vstr "y", 1, none⟩)], 2, []⟩ "a" 0 2
        100).2.cacheMap.tail ++
        [("c", ⟨CacheVal.vstr "z", ResourceCache.estimateSize (CacheVal.vstr "z"),
          if (50 : Nat) ≠ 0 then some (1 + 50) else none⟩)] ∧
    ResourceCache.mapGet? (ResourceCache.set (ResourceCache.get
        ⟨[("a", ⟨CacheVal.vstr "x", 1, none⟩),
          ("b", ⟨CacheVal.vstr "y", 1, none⟩)], 2, []⟩ "a" 0 2 100).2 "c"
        (CacheVal.vstr "z") 50 1 2 100).2.cacheMap "a" =
      some ⟨CacheVal.vstr "x", 1, none⟩) :=
  ⟨⟨by decide, by decide⟩,
    cache_lru_eviction ⟨[("a", ⟨CacheVal.vstr "x", 1, none⟩),
        ("b", ⟨CacheVal.vstr "y", 1, none⟩)], 2, []⟩ 2 100 "a" "c"
      ⟨CacheVal.vstr "x", 1, none⟩ (CacheVal.vstr "z") 0 50 1
      ⟨by decide, by decide⟩ (by decide) (by decide) (by decide) (by decide)
      (by decide) (by decide) (by decide) (by decide)⟩

/-- C10: the byte counter is an exact accounting invariant.  `WF` states
that `currentBytes` equals the sum of the recorded sizes of all entries
currently in the memory map (plus key uniqueness); it is preserved by
every completed public operation (`get`, `set`, `del`, `clear`, and each
sweep pass), and immediately after `set` (with a non-falsy key) the item
count is at most `maxItems` and `currentBytes` is at most `maxBytes`
(default 500 items / 50 MiB at the JS call sites). -/
theorem cache_accounting_invariant (st : ResourceCache.CacheState)
    (k : String) (v : CacheVal) (ttl now mi mb : Nat)
    (hwf : ResourceCache.WF st) (hk : k ≠ "") :
    ResourceCache.WF (ResourceCache.get st k now mi mb).2 ∧
    ResourceCache.WF (ResourceCache.set st k v ttl now mi mb).2 ∧
    (ResourceCache.set st k v ttl now mi mb).2.cacheMap.length ≤ mi ∧
    (ResourceCache.set st k v ttl now mi mb).2.currentBytes ≤ (mb : Int) ∧
    ResourceCache.WF (ResourceCache.del st k).2 ∧
    ResourceCache.WF (ResourceCache.clear st) ∧
    ResourceCache.WF (ResourceCache.sweep st now mi mb) :=
  ⟨ResourceCache.WF_get hwf k now mi mb,
   ResourceCache.WF_set hwf k v ttl now mi mb,
   (ResourceCache.set_bounds hwf hk v ttl now mi mb).1,
   (ResourceCache.set_bounds hwf hk v ttl now mi mb).2,
   ResourceCache.WF_del hwf k,
   ResourceCache.WF_clear st,
   ResourceCache.WF_sweep hwf now mi mb⟩

/-- Witness for C10 at the default bounds, on a concrete one-entry
well-formed state. -/
theorem cache_accounting_invariant_witness :
    ResourceCache.WF ⟨[("a", ⟨CacheVal.vstr "x", 1, some 7⟩)], 1, []⟩ ∧
    (ResourceCache.WF (ResourceCache.get
        ⟨[("a", ⟨CacheVal.vstr "x", 1, some 7⟩)], 1, []⟩ "k" 9
        ResourceCache.DEFAULT_MAX_ITEMS ResourceCache.DEFAULT_MAX_BYTES).2 ∧
    ResourceCache.WF (ResourceCache.set
        ⟨[("a", ⟨CacheVal.vstr "x", 1, some 7⟩)], 1, []⟩ "k" (CacheVal.vstr "w")
        60000 9 ResourceCache.DEFAULT_MAX_ITEMS
        ResourceCache.DEFAULT_MAX_BYTES).2 ∧
    (ResourceCache.set ⟨[("a", ⟨CacheVal.vstr "x", 1, some 7⟩)], 1, []⟩ "k"
        (CacheVal.vstr "w") 60000 9 ResourceCache.DEFAULT_MAX_ITEMS
        ResourceCache.DEFAULT_MAX_BYTES).2.cacheMap.length ≤
      ResourceCache.DEFAULT_MAX_ITEMS ∧
    (ResourceCache.set ⟨[("a", ⟨CacheVal.vstr "x", 1, some 7⟩)], 1, []⟩ "k"
        (CacheVal.vstr "w") 60000 9 ResourceCache.DEFAULT_MAX_ITEMS
        ResourceCache.DEFAULT_MAX_BYTES).2.currentBytes ≤
      (ResourceCache.DEFAULT_MAX_BYTES : Int) ∧
    ResourceCache.WF (ResourceCache.del
        ⟨[("a", ⟨CacheVal.vstr "x", 1, some 7⟩)], 1, []⟩ "k").2 ∧
    ResourceCache.WF (ResourceCache.clear
        ⟨[("a", ⟨CacheVal.vstr "x", 1, some 7⟩)], 1, []⟩) ∧
    ResourceCache.WF (ResourceCache.sweep
        ⟨[("a", ⟨CacheVal.vstr "x", 1, some 7⟩)], 1, []⟩ 9
        ResourceCache.DEFAULT_MAX_ITEMS ResourceCache.DEFAULT_MAX_BYTES)) :=
  ⟨⟨by decide, by decide⟩,
    cache_accounting_invariant ⟨[("a", ⟨CacheVal.vstr "x", 1, some 7⟩)], 1, []⟩
      "k" (CacheVal.vstr "w") 60000 9 ResourceCache.DEFAULT_MAX_ITEMS
      ResourceCache.DEFAULT_MAX_BYTES ⟨by decide, by decide⟩ (by decide)⟩

/-- C4 (code bug): `set` persists `{ value, meta: { ttl, storedAt } }` to
disk, and `get` on a memory miss returns the persisted record itself —
the `{ value, meta }` wrapper — not the value originally stored.  Here
`set("k","v")` then `set("j","w")` on a one-item-bound cache evicts `"k"`
from memory; the subsequent `get("k")` loads the disk copy and returns
the wrapper object rather than `"v"`. -/
theorem cache_disk_reload_returns_wrapper :
    (ResourceCache.get
      (ResourceCache.set
        (ResourceCache.set ⟨[], 0, []⟩ "k" (CacheVal.vstr "v") 1000 0 1
          ResourceCache.DEFAULT_MAX_BYTES).2
        "j" (CacheVal.vstr "w") 1000 5 1 ResourceCache.DEFAULT_MAX_BYTES).2
      "k" 10 1 ResourceCache.DEFAULT_MAX_BYTES).1
      = some (CacheVal.record (CacheVal.vstr "v") 1000 0) ∧
    (ResourceCache.get
      (ResourceCache.set
        (ResourceCache.set ⟨[], 0, []⟩ "k" (CacheVal.vstr "v") 1000 0 1
          ResourceCache.DEFAULT_MAX_BYTES).2
        "j" (CacheVal.vstr "w") 1000 5 1 ResourceCache.DEFAULT_MAX_BYTES).2
      "k" 10 1 ResourceCache.DEFAULT_MAX_BYTES).1
      ≠ some (CacheVal.vstr "v") := by
  constructor <;> decide

/-- C3 (code bug): with the default retry budget (2), an upstream that
answers 404 on every attempt makes `fetchText` perform 3 attempts with
two backoff sleeps — the 4xx `throw` is caught by the loop's own
`catch`, so 4xx responses are retried, contrary to the claim that a 4xx
is terminal and never retried.  The remaining parts of the claim hold:
at most `maxRetries + 1` attempts are ever made, a 5xx is retried and a
later 200 succeeds, `fetchText` finally fails with the last recorded
error, `streamToResponse` ends a 4xx without retrying, and on exhausted
transient errors it reports the terminal 502 to the sink instead of
throwing. -/
theorem fetcher_4xx_retried_bug :
    Fetcher.fetchText (fun _ => Fetcher.Upstream.resp 404 [] "nf")
        Fetcher.DEFAULT_RETRIES =
      ⟨Fetcher.FetchResult.fail (some (Fetcher.FetchErr.httpErr 404)), 3,
        [300, 600]⟩ ∧
    Fetcher.fetchText (fun a => if a ≤ 2 then Fetcher.Upstream.resp 503 [] "u"
        else Fetcher.Upstream.resp 200 [] "body") Fetcher.DEFAULT_RETRIES =
      ⟨Fetcher.FetchResult.ok "body", 3, [300, 600]⟩ ∧
    Fetcher.streamToResponse (fun _ => Fetcher.Upstream.resp 404 [] "nf")
        Fetcher.DEFAULT_RETRIES =
      (Fetcher.SinkEvent.statusSend 404 "Upstream error: 404", 1, []) ∧
    Fetcher.streamToResponse (fun _ => Fetcher.Upstream.netErr "reset")
        Fetcher.DEFAULT_RETRIES =
      (Fetcher.SinkEvent.statusSend 502 "Failed to fetch resource", 3,
        [300, 600]) := by
  refine ⟨?_, ?_, ?_, ?_⟩ <;>
    simp [Fetcher.fetchText, Fetcher.streamToResponse, Fetcher.fetchTextLoop,
      Fetcher.streamLoop, Fetcher.DEFAULT_RETRIES, Fetcher.okStatus,
      Fetcher.BACKOFF_BASE, Fetcher.filterHeaders, Fetcher.headerWhitelist] <;>
    rfl

theorem fetchTextLoop_attempts_le (upstream : Nat → Fetcher.Upstream)
    (retries : Nat) : ∀ fuel attempt lastErr sleeps,
    retries + 1 ≤ attempt + fuel →
    (Fetcher.fetchTextLoop upstream retries attempt lastErr
      sleeps).attemptsMade ≤ max attempt (retries + 1) := by
  intro fuel
  induction fuel with
  | zero =>
    intro attempt lastErr sleeps hf
    rw [Fetcher.fetchTextLoop, if_neg (by omega)]
    exact le_max_left _ _
  | succ n ih =>
    intro attempt lastErr sleeps hf
    rw [Fetcher.fetchTextLoop]
    by_cases ha : attempt ≤ retries
    · rw [if_pos ha]
      have hrec : ∀ e s, (Fetcher.fetchTextLoop upstream retries (attempt + 1)
          e s).attemptsMade ≤ max (attempt + 1) (retries + 1) :=
        fun e s => ih (attempt + 1) e s (by omega)
      cases hu : upstream (attempt + 1) with
      | resp status headers body =>
        dsimp only
        split
        · dsimp only; omega
        · split
          · exact le_trans (hrec _ _) (by omega)
          · split
            · exact le_trans (hrec _ _) (by omega)
            · exact le_trans (hrec _ _) (by omega)
      | netErr m =>
        dsimp only
        split
        · exact le_trans (hrec _ _) (by omega)
        · exact le_trans (hrec _ _) (by omega)
    · rw [if_neg ha]
      exact le_max_left _ _

/-- C1 (code bug): the listed loopback literals are rejected by both
validators — except `http://[::1]/x`.  The WHATWG `hostname` of an IPv6
literal keeps its brackets (`[::1]`), while sanitize.js's `badHosts`
prefix test uses `::1` and validator.js's `BLACKLIST_HOSTS` holds the
exact string `::1`, so neither matches and the URL is accepted, contrary
to the claim (and to the evident intent of both blocklists).
`http://127.0.0.1/x` and `http://localhost/x` are rejected and
`http://example.com` is accepted, as claimed. -/
theorem validator_ipv6_blocklist_bug :
    Validator.validateUrl "http://127.0.0.1/x".toList =
      ⟨false, some "Host is blacklisted"⟩ ∧
    Validator.validateUrl "http://localhost/x".toList =
      ⟨false, some "Host is blacklisted"⟩ ∧
    Validator.validateUrl "http://example.com".toList = ⟨true, none⟩ ∧
    Validator.validateUrl "http://[::1]/x".toList = ⟨true, none⟩ ∧
    Sanitize.sanitizeURL "http://127.0.0.1/x".toList = none ∧
    Sanitize.sanitizeURL "http://localhost/x".toList = none ∧
    Sanitize.sanitizeURL "http://example.com".toList =
      some "http://example.com/".toList ∧
    Sanitize.sanitizeURL "http://[::1]/x".toList =
      some "http://[::1]/x".toList := by
  refine ⟨?_, ?_, ?_, ?_, ?_, ?_, ?_, ?_⟩ <;> decide

/-- C7 (code bug): `sanitizeURL` deletes flagged query parameters inside
a `searchParams.forEach`, and each delete shifts the live list so the
following entry is skipped; with two consecutive flagged parameters the
second one survives.  The returned URL still contains `b=script`, whose
value matches the injection pattern. -/
theorem sanitize_query_strip_bug :
    Sanitize.sanitizeURL "https://example.com/?a=script&b=script".toList =
      some "https://example.com/?b=script".toList ∧
    Sanitize.badParamValue "script".toList = true ∧
    (URLModel.parseQueryString "b=script".toList).any
      (fun p => Sanitize.badParamValue p.2) = true := by
  refine ⟨?_, ?_, ?_⟩ <;> decide

theorem char_toNat_lt (c : Char) : c.toNat < 1114112 := by
  have h2 := c.valid
  simp [Nat.isValidChar, UInt32.isValidChar] at h2
  rcases h2 with h2 | h2 <;> simp [Char.toNat] <;> omega

theorem utf8Bytes_ascii {c : Char} (h : c.toNat < 128) :
    URLModel.utf8Bytes c = [c.toNat] := by
  simp [URLModel.utf8Bytes, h]

theorem hexVal_hexUpperDigit {n : Nat} (h : n < 16) :
    URLModel.hexVal (URLModel.hexUpperDigit n) = some n := by
  interval_cases n <;> decide

theorem uriUnreserved_ne_pct {c : Char}
    (h : URLModel.uriUnreservedChar c = true) : c ≠ '%' := by
  intro heq
  rw [heq] at h
  exact absurd h (by decide)

theorem pctDecodeBytes_cons_ne {c : Char} (h : c ≠ '%') (rest : List Char) :
    URLModel.pctDecodeBytes (c :: rest) =
      (URLModel.pctDecodeBytes rest).map
        (fun t => URLModel.utf8Bytes c ++ t) := by
  rcases rest with _ | ⟨a, _ | ⟨b, t2⟩⟩ <;> simp [URLModel.pctDecodeBytes, h]

theorem pctDecodeBytes_pct {a b : Char} {ha hb : Nat}
    (h1 : URLModel.hexVal a = some ha) (h2 : URLModel.hexVal b = some hb)
    (rest2 : List Char) :
    URLModel.pctDecodeBytes ('%' :: a :: b :: rest2) =
      (URLModel.pctDecodeBytes rest2).map ((16 * ha + hb) :: ·) := by
  simp [URLModel.pctDecodeBytes, h1, h2]

theorem pctDecode_encode_ascii : ∀ s : List Char,
    (∀ c ∈ s, c.toNat < 128) →
    URLModel.pctDecodeBytes (URLModel.encodeURIComponent s) =
      some (s.map Char.toNat) := by
  intro s
  induction s with
  | nil => intro _; rfl
  | cons c rest ih =>
    intro hs
    have hc : c.toNat < 128 := hs c (List.mem_cons_self c rest)
    have hrest := ih (fun d hd => hs d (List.mem_cons_of_mem c hd))
    by_cases hu : URLModel.uriUnreservedChar c = true
    · have hne : c ≠ '%' := uriUnreserved_ne_pct hu
      rw [URLModel.encodeURIComponent]
      simp only [hu, if_true]
      rw [List.singleton_append, pctDecodeBytes_cons_ne hne, hrest,
        utf8Bytes_ascii hc]
      rfl
    · have hq : (c.toNat / 16) < 16 := by omega
      have hr : (c.toNat % 16) < 16 := by omega
      rw [URLModel.encodeURIComponent]
      simp only [hu, if_false, Bool.false_eq_true, utf8Bytes_ascii hc]
      simp only [List.flatMap_cons, List.flatMap_nil, List.append_nil]
      simp only [List.cons_append, List.nil_append]
      rw [pctDecodeBytes_pct (hexVal_hexUpperDigit hq)
          (hexVal_hexUpperDigit hr), hrest]
      have he : 16 * (c.toNat / 16) + c.toNat % 16 = c.toNat := by omega
      simp [he]

theorem utf8Strict_ascii_cons {b : Nat} (h : b < 128) (fuel : Nat)
    (rest : List Nat) :
    URLModel.utf8DecodeStrictF (fuel + 1) (b :: rest) =
      (URLModel.utf8DecodeStrictF fuel rest).map (Char.ofNat b :: ·) := by
  simp only [URLModel.utf8DecodeStrictF, if_pos h]

theorem utf8Strict_map_ascii : ∀ s : List Char,
    (∀ c ∈ s, c.toNat < 128) →
    URLModel.utf8DecodeStrict (s.map Char.toNat) = some s := by
  intro s
  induction s with
  | nil => intro _; rfl
  | cons c rest ih =>
    intro hs
    have hc : c.toNat < 128 := hs c (List.mem_cons_self c rest)
    have hrest := ih (fun d hd => hs d (List.mem_cons_of_mem c hd))
    rw [URLModel.utf8DecodeStrict] at hrest
    rw [List.map_cons, URLModel.utf8DecodeStrict, List.length_cons,
      utf8Strict_ascii_cons hc, hrest]
    simp [Char.ofNat_toNat]

/-- decode-after-encode is the identity on ASCII strings. -/
theorem decode_encode_ascii (s : List Char) (h : ∀ c ∈ s, c.toNat < 128) :
    URLModel.decodeURIComponent (URLModel.encodeURIComponent s) = some s := by
  rw [URLModel.decodeURIComponent, pctDecode_encode_ascii s h]
  exact utf8Strict_map_ascii s h

/-- C6: rewriting `<img src="/a.png">` against base
`https://site.test/page` with the default resource prefix
`/resource?url=` yields
`src="/resource?url=https%3A%2F%2Fsite.test%2Fa.png"`, and
percent-decoding after percent-encoding is the identity on (ASCII)
absolute URLs, so the query value of any such rewritten attribute
decodes back to the resolved absolute URL exactly. -/
theorem html_rewrite_roundtrip :
    Rewrite.rewriteHtml "<img src=\"/a.png\">".toList
        "https://site.test/page".toList Rewrite.defaultCfg =
      "<img src=\"/resource?url=https%3A%2F%2Fsite.test%2Fa.png\">".toList ∧
    (∀ s : List Char, (∀ c ∈ s, c.toNat < 128) →
      URLModel.decodeURIComponent (URLModel.encodeURIComponent s) = some s) ∧
    Rewrite.safeResolve "/a.png".toList "https://site.test/page".toList =
      "https://site.test/a.png".toList ∧
    URLModel.encodeURIComponent "https://site.test/a.png".toList =
      "https%3A%2F%2Fsite.test%2Fa.png".toList ∧
    URLModel.decodeURIComponent "https%3A%2F%2Fsite.test%2Fa.png".toList =
      some "https://site.test/a.png".toList :=
  ⟨by decide, decode_encode_ascii, by decide, by decide, by decide⟩

/-- Witness for C6's round-trip law at the resolved absolute URL. -/
theorem html_rewrite_roundtrip_witness :
    (∀ c ∈ "https://site.test/a.png".toList, c.toNat < 128) ∧
    URLModel.decodeURIComponent
        (URLModel.encodeURIComponent "https://site.test/a.png".toList) =
      some "https://site.test/a.png".toList :=
  ⟨by decide,
    html_rewrite_roundtrip.2.1 "https://site.test/a.png".toList (by decide)⟩

/-- General attempt bound for the fetchText loop: no run makes more than
`retries + 1` attempts (supporting the part of C3 that holds). -/
theorem fetchText_attempts_le (upstream : Nat → Fetcher.Upstream)
    (retries : Nat) : (Fetcher.fetchText upstream retries).attemptsMade ≤
      retries + 1 := by
  have h := fetchTextLoop_attempts_le upstream retries (retries + 1) 0 none []
    (by omega)
  simp only [Fetcher.fetchText]
  omega

/-! ### C9: CSS rewriting degrades gracefully on a broken `url(` -/

theorem toNat_ofNat_lt {n : Nat} (h : n < 55296) : (Char.ofNat n).toNat = n := by
  have hv : n.isValidChar := Or.inl h
  rw [Char.ofNat, dif_pos hv]
  rfl

theorem toLowerChar_cases (c : Char) :
    URLModel.toLowerChar c = c ∨
      (65 ≤ c.toNat ∧ c.toNat ≤ 90 ∧
        (URLModel.toLowerChar c).toNat = c.toNat + 32) := by
  rw [URLModel.toLowerChar]
  by_cases h : (Char.ofNat 65) ≤ c ∧ c ≤ (Char.ofNat 90)
  · right
    have h65 : 65 ≤ c.toNat := by
      have := h.1
      rw [Char.le_def] at this
      exact this
    have h90 : c.toNat ≤ 90 := by
      have := h.2
      rw [Char.le_def] at this
      exact this
    have hAZ : (Char.ofNat 65 : Char) = 'A' := by decide
    have hZZ : (Char.ofNat 90 : Char) = 'Z' := by decide
    rw [hAZ, hZZ] at h
    rw [if_pos h]
    exact ⟨h65, h90, toNat_ofNat_lt (by omega)⟩
  · left
    have hAZ : (Char.ofNat 65 : Char) = 'A' := by decide
    have hZZ : (Char.ofNat 90 : Char) = 'Z' := by decide
    rw [hAZ, hZZ] at h
    rw [if_neg h]

theorem ciEqChar_u_false {c : Char} (h1 : c ≠ 'u') (h2 : c ≠ 'U') :
    URLModel.ciEqChar 'u' c = false := by
  have hl : URLModel.toLowerChar 'u' = 'u' := by decide
  rw [URLModel.ciEqChar, hl]
  simp only [decide_eq_false_iff_not]
  intro heq
  rcases toLowerChar_cases c with hc | ⟨hlo, hhi, hplus⟩
  · rw [hc] at heq
    exact h1 heq.symm
  · rw [← heq] at hplus
    have : c.toNat = 85 := by
      have : ('u' : Char).toNat = 117 := by decide
      omega
    have hofc : Char.ofNat c.toNat = Char.ofNat 85 := by rw [this]
    rw [Char.ofNat_toNat] at hofc
    have : (Char.ofNat 85 : Char) = 'U' := by decide
    exact h2 (hofc.trans this)

theorem ciEqChar_at_false {c : Char} (h : c ≠ '@') :
    URLModel.ciEqChar '@' c = false := by
  have hl : URLModel.toLowerChar '@' = '@' := by decide
  rw [URLModel.ciEqChar, hl]
  simp only [decide_eq_false_iff_not]
  intro heq
  rcases toLowerChar_cases c with hc | ⟨hlo, hhi, hplus⟩
  · rw [hc] at heq
    exact h heq.symm
  · rw [← heq] at hplus
    have : ('@' : Char).toNat = 64 := by decide
    omega

theorem matchUrlRef_head_none {c : Char} (h1 : c ≠ 'u') (h2 : c ≠ 'U')
    (rest : List Char) : Rewrite.matchUrlRef (c :: rest) = none := by
  rw [Rewrite.matchUrlRef]
  have hlit : Rewrite.matchLitCI "url(".toList (c :: rest) = none := by
    have : "url(".toList = 'u' :: "rl(".toList := rfl
    rw [this, Rewrite.matchLitCI, ciEqChar_u_false h1 h2]
    simp
  rw [hlit]

theorem matchImportRef_head_none {c : Char} (h : c ≠ '@')
    (rest : List Char) : Rewrite.matchImportRef (c :: rest) = none := by
  rw [Rewrite.matchImportRef]
  have hlit : Rewrite.matchLitCI "@import".toList (c :: rest) = none := by
    have : "@import".toList = '@' :: "import".toList := rfl
    rw [this, Rewrite.matchLitCI, ciEqChar_at_false h]
    simp
  rw [hlit]

theorem takeWhile_all_append {p : Char → Bool} {u : List Char} {x : Char}
    (hu : ∀ c ∈ u, p c = true) (hx : p x = false) (r : List Char) :
    (u ++ x :: r).takeWhile p = u := by
  induction u with
  | nil => simp [List.takeWhile_cons, hx]
  | cons c u2 ih =>
    have hc := hu c (List.mem_cons_self c u2)
    simp only [List.cons_append, List.takeWhile_cons, hc, if_true]
    rw [ih (fun d hd => hu d (List.mem_cons_of_mem c hd))]

theorem matchUrlRef_url_broken {T : List Char} (hT : ∀ c ∈ T, c ≠ ')') :
    Rewrite.matchUrlRef ("url(".toList ++ T) = none := by
  rw [Rewrite.matchUrlRef]
  have hm : Rewrite.matchLitCI "url(".toList ("url(".toList ++ T) = some T :=
    rfl
  rw [hm]
  have htw : T.takeWhile (fun c => decide ¬(c = ')')) = T := by
    rw [List.takeWhile_eq_self_iff]
    intro a ha
    simp [hT a ha]
  cases T with
  | nil => simp
  | cons c T2 =>
    simp only
    rw [htw]
    simp only [List.isEmpty_cons, List.drop_length]
    simp

theorem matchUrlRef_exact {u : List Char} (hne : u ≠ [])
    (hu : ∀ c ∈ u, c ≠ ')') (r : List Char) :
    Rewrite.matchUrlRef ("url(".toList ++ (u ++ ')' :: r)) =
      some (u, 4 + u.length + 1) := by
  rw [Rewrite.matchUrlRef]
  have hm : Rewrite.matchLitCI "url(".toList
      ("url(".toList ++ (u ++ ')' :: r)) = some (u ++ ')' :: r) := rfl
  rw [hm]
  have htw : (u ++ ')' :: r).takeWhile (fun c => decide ¬(c = ')')) = u :=
    takeWhile_all_append (fun c hc => by simp [hu c hc]) (by simp) r
  simp only [htw]
  have hdrop : (u ++ ')' :: r).drop u.length = ')' :: r := List.drop_left u _
  rw [hdrop]
  have hie : u.isEmpty = false := by
    cases u with
    | nil => exact absurd rfl hne
    | cons a b => rfl
  simp [hie]

theorem scanB_prev_irrel (g : List Char → Option (List Char × Nat))
    (fuel : Nat) (p1 p2 : Option Char) (s : List Char) :
    Rewrite.scanReplaceB (fun _ t => g t) fuel p1 s =
      Rewrite.scanReplaceB (fun _ t => g t) fuel p2 s := by
  cases fuel with
  | zero => cases s <;> rfl
  | succ n => cases s <;> rfl

theorem scanB_skip (g : List Char → Option (List Char × Nat))
    (p : Char → Bool)
    (hg : ∀ c rest, p c = true → g (c :: rest) = none) :
    ∀ (A : List Char) (fuel : Nat) (prev : Option Char) (r : List Char),
    (∀ c ∈ A, p c = true) → A.length ≤ fuel →
    Rewrite.scanReplaceB (fun _ t => g t) fuel prev (A ++ r) =
      A ++ Rewrite.scanReplaceB (fun _ t => g t) (fuel - A.length) none r := by
  intro A
  induction A with
  | nil =>
    intro fuel prev r _ _
    simp only [List.nil_append, List.length_nil, Nat.sub_zero]
    exact scanB_prev_irrel g fuel prev none r
  | cons c A2 ih =>
    intro fuel prev r hA hfuel
    have hc := hA c (List.mem_cons_self c A2)
    obtain ⟨n, rfl⟩ : ∃ n, fuel = n + 1 :=
      ⟨fuel - 1, by simp at hfuel; omega⟩
    simp only [List.cons_append, Rewrite.scanReplaceB]
    have hg2 : g (c :: List.append A2 r) = none := hg c (A2 ++ r) hc
    rw [hg2]
    show c :: Rewrite.scanReplaceB (fun _ t => g t) n (some c) (A2 ++ r) =
      c :: (A2 ++ Rewrite.scanReplaceB (fun _ t => g t)
        (n + 1 - (c :: A2).length) none r)
    rw [ih n (some c) r (fun d hd => hA d (List.mem_cons_of_mem c hd))
      (by simp at hfuel; omega)]
    simp [Nat.succ_sub_succ]

theorem scanB_id (g : List Char → Option (List Char × Nat)) :
    ∀ (fuel : Nat) (s : List Char) (prev : Option Char),
    (∀ c rest2, (c :: rest2) <:+ s → g (c :: rest2) = none) →
    Rewrite.scanReplaceB (fun _ t => g t) fuel prev s = s := by
  intro fuel
  induction fuel with
  | zero => intro s prev _; cases s <;> rfl
  | succ n ih =>
    intro s prev hs
    cases s with
    | nil => rfl
    | cons c rest =>
      have h0 := hs c rest (List.suffix_refl _)
      simp only [Rewrite.scanReplaceB, h0]
      exact congrArg (c :: ·)
        (ih rest (some c)
          (fun d rd hsuf => hs d rd (hsuf.trans (List.suffix_cons c rest))))

theorem scanB_url_step (b rp : List Char) {u : List Char} (hne : u ≠ [])
    (hu : ∀ c ∈ u, c ≠ ')') (fuel : Nat) (prev : Option Char)
    (r : List Char) :
    Rewrite.scanReplaceB (fun _ t => Rewrite.cssUrlMatcher b rp t) (fuel + 1)
        prev ("url(".toList ++ (u ++ ')' :: r)) =
      Rewrite.cssUrlReplacement b rp u ++
        Rewrite.scanReplaceB (fun _ t => Rewrite.cssUrlMatcher b rp t) fuel
          none r := by
  have hm : Rewrite.cssUrlMatcher b rp ("url(".toList ++ (u ++ ')' :: r)) =
      some (Rewrite.cssUrlReplacement b rp u, 4 + u.length + 1) := by
    rw [Rewrite.cssUrlMatcher, matchUrlRef_exact hne hu]
    rfl
  have hshape : "url(".toList ++ (u ++ ')' :: r) =
      'u' :: ('r' :: 'l' :: '(' :: (u ++ ')' :: r)) := rfl
  rw [hshape] at hm ⊢
  simp only [Rewrite.scanReplaceB, hm, Nat.add_sub_cancel]
  have hdrop : List.drop (4 + u.length)
      ('r' :: 'l' :: '(' :: (u ++ ')' :: r)) = r := by
    have h0 : 4 + u.length = 3 + (u.length + 1) := by omega
    rw [h0, ← List.drop_drop]
    have h3 : List.drop 3 ('r' :: 'l' :: '(' :: (u ++ ')' :: r)) =
        u ++ ')' :: r := rfl
    rw [h3, ← List.drop_drop, List.drop_left]
    rfl
  rw [hdrop, scanB_prev_irrel (Rewrite.cssUrlMatcher b rp) fuel _ none r]

theorem utf8Bytes_lt_256 (c : Char) : ∀ b ∈ URLModel.utf8Bytes c, b < 256 := by
  have hc := char_toNat_lt c
  intro b hb
  simp only [URLModel.utf8Bytes] at hb
  split_ifs at hb with h1 h2 h3 <;> simp at hb <;> omega

theorem hexUpperDigit_ne_at {n : Nat} (h : n < 16) :
    URLModel.hexUpperDigit n ≠ '@' := by
  interval_cases n <;> decide

theorem encode_no_at : ∀ s : List Char,
    ∀ c ∈ URLModel.encodeURIComponent s, c ≠ '@' := by
  intro s
  induction s with
  | nil => intro c hc; simp [URLModel.encodeURIComponent] at hc
  | cons c rest ih =>
    intro d hd
    rw [URLModel.encodeURIComponent] at hd
    rcases List.mem_append.mp hd with h1 | h2
    · by_cases hur : URLModel.uriUnreservedChar c = true
      · rw [if_pos hur] at h1
        simp at h1
        subst h1
        intro heq
        rw [heq] at hur
        exact absurd hur (by decide)
      · rw [if_neg hur] at h1
        rcases List.mem_flatMap.mp h1 with ⟨b, hb, hdb⟩
        have hb256 : b < 256 := utf8Bytes_lt_256 c b hb
        simp at hdb
        rcases hdb with rfl | rfl | rfl
        · decide
        · exact hexUpperDigit_ne_at (by omega)
        · exact hexUpperDigit_ne_at (by omega)
    · exact ih d h2

theorem jsTrim_subset (l : List Char) : ∀ c ∈ URLModel.jsTrim l, c ∈ l := by
  intro c hc
  rw [URLModel.jsTrim, List.mem_reverse] at hc
  have h2 := (List.dropWhile_sublist _).subset hc
  rw [List.mem_reverse] at h2
  exact (List.dropWhile_sublist _).subset h2

theorem cssUrlReplacement_no_at {b u : List Char}
    (hu : ∀ c ∈ u, c ≠ '@') :
    ∀ c ∈ Rewrite.cssUrlReplacement b "/resource?url=".toList u,
      c ≠ '@' := by
  intro c hc
  rw [Rewrite.cssUrlReplacement] at hc
  have hclean : ∀ d ∈ URLModel.jsTrim
      (u.filter (fun c => decide ¬(c = '"' ∨ c = URLModel.squote))),
      d ≠ '@' := by
    intro d hd
    exact hu d (List.mem_of_mem_filter (jsTrim_subset _ d hd))
  split_ifs at hc with hdata
  · rcases List.mem_append.mp hc with h1 | h1
    · rcases List.mem_append.mp h1 with h2 | h2
      · intro heq; subst heq; exact absurd h2 (by decide)
      · exact hclean c h2
    · intro heq; subst heq; exact absurd h1 (by decide)
  · rcases List.mem_append.mp hc with h1 | h1
    · rcases List.mem_append.mp h1 with h2 | h2
      · rcases List.mem_append.mp h2 with h3 | h3
        · intro heq; subst heq; exact absurd h3 (by decide)
        · intro heq; subst heq; exact absurd h3 (by decide)
      · exact encode_no_at _ c h2
    · intro heq; subst heq; exact absurd h1 (by decide)

/-- C9: rewriting CSS whose tail holds a syntactically broken
`url(` construct (never closed, so the `/url\(([^)]+)\)/gi` regex cannot
match it) degrades gracefully: the broken fragment and its surroundings
pass through unchanged while the valid `url(...)` reference earlier in
the same text is still rewritten through the resource prefix.  `A`, `B`,
`T` range over fragments free of `u`/`U`/`@` (so they host no other
match), `u` is a non-empty url body free of `)`/`@`. -/
theorem css_broken_url_graceful (A B T u base : List Char)
    (hA : ∀ c ∈ A, ¬(c = 'u' ∨ c = 'U' ∨ c = '@'))
    (hB : ∀ c ∈ B, ¬(c = 'u' ∨ c = 'U' ∨ c = '@'))
    (hT : ∀ c ∈ T, ¬(c = 'u' ∨ c = 'U' ∨ c = '@' ∨ c = ')'))
    (hne : u ≠ []) (hu : ∀ c ∈ u, ¬(c = ')' ∨ c = '@'))
    (hbase : base ≠ []) :
    Rewrite.rewriteCss
        (A ++ ("url(".toList ++ (u ++ ')' :: (B ++ ("url(".toList ++ T)))))
        base "/resource?url=".toList =
      A ++ (Rewrite.cssUrlReplacement base "/resource?url=".toList u ++
        (B ++ ("url(".toList ++ T))) := by
  have hbe : base.isEmpty = false := by
    cases base with
    | nil => exact absurd rfl hbase
    | cons a b => rfl
  have hce : (A ++ ("url(".toList ++ (u ++ ')' ::
      (B ++ ("url(".toList ++ T))))).isEmpty = false := by
    cases A <;> rfl
  rw [Rewrite.rewriteCss, if_neg (by simp [hbe, hce])]
  -- the predicate blocking a url( match: not u, not U
  have hg1 : ∀ c rest, (decide ¬(c = 'u' ∨ c = 'U')) = true →
      Rewrite.cssUrlMatcher base "/resource?url=".toList (c :: rest) =
        none := by
    intro c rest hc
    simp only [decide_eq_true_eq] at hc
    push_neg at hc
    rw [Rewrite.cssUrlMatcher, matchUrlRef_head_none hc.1 hc.2]
    rfl
  -- first pass: the url( rewriting scan
  have hpass1 : Rewrite.scanReplace
      (Rewrite.cssUrlMatcher base "/resource?url=".toList)
      (A ++ ("url(".toList ++ (u ++ ')' :: (B ++ ("url(".toList ++ T))))) =
      A ++ (Rewrite.cssUrlReplacement base "/resource?url=".toList u ++
        (B ++ ("url(".toList ++ T))) := by
    rw [Rewrite.scanReplace]
    rw [scanB_skip (Rewrite.cssUrlMatcher base "/resource?url=".toList)
      (fun c => decide ¬(c = 'u' ∨ c = 'U')) hg1 A _ none _
      (fun c hc => by simp; push_neg; have := hA c hc; push_neg at this
                      exact ⟨this.1, this.2.1⟩)
      (by simp)]
    congr 1
    have hlen : (A ++ ("url(".toList ++ (u ++ ')' ::
        (B ++ ("url(".toList ++ T))))).length - A.length =
        (4 + (u.length + (1 + (B.length + (4 + T.length))))) := by
      simp [List.length_append]
      omega
    rw [hlen]
    have hsplit : 4 + (u.length + (1 + (B.length + (4 + T.length)))) =
        (3 + (u.length + (1 + (B.length + (4 + T.length))))) + 1 := by omega
    rw [hsplit,
      scanB_url_step base "/resource?url=".toList hne
        (fun c hc => by have := hu c hc; push_neg at this; exact this.1)
        _ none _]
    congr 1
    rw [scanB_skip (Rewrite.cssUrlMatcher base "/resource?url=".toList)
      (fun c => decide ¬(c = 'u' ∨ c = 'U')) hg1 B _ none _
      (fun c hc => by simp; push_neg; have := hB c hc; push_neg at this
                      exact ⟨this.1, this.2.1⟩)
      (by omega)]
    congr 1
    apply scanB_id
    intro c rest2 hsuf
    have hbrk : Rewrite.matchUrlRef ("url(".toList ++ T) = none :=
      matchUrlRef_url_broken (fun c hc => by
        have := hT c hc; push_neg at this; exact this.2.2.2)
    have hhead : ∀ d : Char, d ≠ 'u' → d ≠ 'U' → ∀ rr,
        Rewrite.cssUrlMatcher base "/resource?url=".toList (d :: rr) =
          none := by
      intro d h1 h2 rr
      rw [Rewrite.cssUrlMatcher, matchUrlRef_head_none h1 h2]
      rfl
    have hshape : "url(".toList ++ T = 'u' :: 'r' :: 'l' :: '(' :: T := rfl
    rw [hshape] at hsuf
    rcases List.suffix_cons_iff.mp hsuf with heq | hsuf2
    · have : c :: rest2 = "url(".toList ++ T := heq.trans hshape.symm
      rw [this, Rewrite.cssUrlMatcher, hbrk]
      rfl
    rcases List.suffix_cons_iff.mp hsuf2 with heq | hsuf3
    · cases heq
      exact hhead 'r' (by decide) (by decide) _
    rcases List.suffix_cons_iff.mp hsuf3 with heq | hsuf4
    · cases heq
      exact hhead 'l' (by decide) (by decide) _
    rcases List.suffix_cons_iff.mp hsuf4 with heq | hsuf5
    · cases heq
      exact hhead '(' (by decide) (by decide) _
    · have hcmem : c ∈ T := hsuf5.subset (List.mem_cons_self c rest2)
      have := hT c hcmem
      push_neg at this
      exact hhead c this.1 this.2.1 _
  rw [hpass1]
  -- second pass: the @import scan finds nothing (no @ anywhere)
  set out := A ++ (Rewrite.cssUrlReplacement base "/resource?url=".toList u ++
      (B ++ ("url(".toList ++ T))) with hout
  have hnoat : ∀ c ∈ out, c ≠ '@' := by
    intro c hc
    rw [hout] at hc
    rcases List.mem_append.mp hc with h1 | h1
    · have := hA c h1; push_neg at this; exact this.2.2
    rcases List.mem_append.mp h1 with h2 | h2
    · exact cssUrlReplacement_no_at
        (fun d hd => by have := hu d hd; push_neg at this; exact this.2)
        c h2
    rcases List.mem_append.mp h2 with h3 | h3
    · have := hB c h3; push_neg at this; exact this.2.2
    rcases List.mem_append.mp h3 with h4 | h4
    · intro heq; subst heq; exact absurd h4 (by decide)
    · have := hT c h4; push_neg at this; exact this.2.2.1
  rw [Rewrite.scanReplace]
  apply scanB_id
  intro c rest2 hsuf
  have hcmem : c ∈ out := hsuf.subset (List.mem_cons_self c rest2)
  rw [Rewrite.cssImportMatcher, matchImportRef_head_none (hnoat c hcmem)]
  rfl

/-- Witness for C9 on `body url(/x.png) .b url(broken`. -/
theorem css_broken_url_graceful_witness :
    Rewrite.rewriteCss
        ("body ".toList ++ ("url(".toList ++ ("/x.png".toList ++ ')' ::
          (" .b ".toList ++ ("url(".toList ++ "broken".toList)))))
        "https://site.test/".toList "/resource?url=".toList =
      "body ".toList ++
        (Rewrite.cssUrlReplacement "https://site.test/".toList
            "/resource?url=".toList "/x.png".toList ++
          (" .b ".toList ++ ("url(".toList ++ "broken".toList))) :=
  css_broken_url_graceful "body ".toList " .b ".toList "broken".toList
    "/x.png".toList "https://site.test/".toList
    (by decide) (by decide) (by decide) (by decide) (by decide) (by decide)

/-! ### C8: CSS import inlining terminates on non-cyclic chains -/

theorem safeResolve_abs {u a : List Char}
    (h : (URLModel.parseAbsoluteURL u).map URLModel.serializeURL = some a)
    (b : List Char) : Rewrite.safeResolve u b = a := by
  rw [Rewrite.safeResolve, URLModel.resolveURL]
  cases hp : URLModel.parseAbsoluteURL u with
  | none => rw [hp] at h; simp at h
  | some r =>
    rw [hp] at h
    simp at h
    simpa using h

theorem importStmt_length (u : List Char) :
    (CssParser.importStmt u).length = 16 + u.length := by
  simp [CssParser.importStmt]
  omega

theorem atFree_append {a b : List Char} (ha : CssParser.atFree a)
    (hb : CssParser.atFree b) : CssParser.atFree (a ++ b) := by
  intro c hc
  rcases List.mem_append.mp hc with h | h
  · exact ha c h
  · exact hb c h

theorem inlined_atFree : ∀ (levels : List CssParser.ChainLevel)
    (L : List Char), CssParser.levelsOK levels → CssParser.atFree L →
    CssParser.atFree (CssParser.inlined levels L) := by
  intro levels
  induction levels with
  | nil => intro L _ hL; exact hL
  | cons lv rest ih =>
    intro L hOK hL
    exact atFree_append hOK.1.1
      (atFree_append (ih L hOK.2 hL) hOK.1.2.1)

theorem chainCss_ne_nil (levels : List CssParser.ChainLevel)
    (L : List Char) (hL : L ≠ []) : CssParser.chainCss levels L ≠ [] := by
  cases levels with
  | nil => exact hL
  | cons lv rest =>
    simp [CssParser.chainCss, CssParser.importStmt]

theorem importStmtAt_head_none {c : Char} (h : c ≠ '@')
    (rest : List Char) : CssParser.importStmtAt (c :: rest) = none := by
  rw [CssParser.importStmtAt]
  have hlit : Rewrite.matchLitCI "@import".toList (c :: rest) = none := by
    have : "@import".toList = '@' :: "import".toList := rfl
    rw [this, Rewrite.matchLitCI, ciEqChar_at_false h]
    simp
  rw [hlit]

theorem findImportAux_none : ∀ (s : List Char) (pos : Nat),
    (∀ c ∈ s, c ≠ '@') → CssParser.findImportAux s pos = none := by
  intro s
  induction s with
  | nil => intro pos _; rfl
  | cons c rest ih =>
    intro pos hs
    rw [CssParser.findImportAux,
      importStmtAt_head_none (hs c (List.mem_cons_self c rest))]
    exact ih (pos + 1) (fun d hd => hs d (List.mem_cons_of_mem c hd))

theorem importStmt_shape (u Z : List Char) :
    CssParser.importStmt u ++ Z =
      '@' :: 'i' :: 'm' :: 'p' :: 'o' :: 'r' :: 't' :: ' ' :: 'u' :: 'r' ::
        'l' :: '(' :: URLModel.squote ::
        (u ++ URLModel.squote :: ')' :: ';' :: Z) := by
  simp [CssParser.importStmt, List.append_assoc]

theorem importTail_stmt {u : List Char} (hne : u ≠ [])
    (hcl : ∀ c ∈ u, CssParser.importClassChar c = true) (Z : List Char) :
    CssParser.importTail (URLModel.squote ::
        (u ++ URLModel.squote :: ')' :: ';' :: Z)) =
      some (u, 1 + u.length + 3) := by
  have hq : CssParser.importTailQ (URLModel.squote ::
      (u ++ URLModel.squote :: ')' :: ';' :: Z)) = 1 := rfl
  rw [CssParser.importTail, hq]
  have hd1 : (URLModel.squote ::
      (u ++ URLModel.squote :: ')' :: ';' :: Z)).drop 1 =
      u ++ URLModel.squote :: ')' :: ';' :: Z := rfl
  rw [hd1]
  have htw : (u ++ URLModel.squote :: ')' :: ';' :: Z).takeWhile
      CssParser.importClassChar = u :=
    takeWhile_all_append hcl (by decide) _
  rw [CssParser.importTailCore, htw, List.drop_left]
  have hie : u.isEmpty = false := by
    cases u with
    | nil => exact absurd rfl hne
    | cons a b => rfl
  rw [CssParser.importTailGroup, hie]
  have hfull : CssParser.importTailFull
      (URLModel.squote :: ')' :: ';' :: Z) = some 3 := rfl
  rw [hfull]
  rfl

theorem importStmtAt_stmt {u : List Char} (hne : u ≠ [])
    (hcl : ∀ c ∈ u, CssParser.importClassChar c = true) (Z : List Char) :
    CssParser.importStmtAt (CssParser.importStmt u ++ Z) =
      some (u, 16 + u.length) := by
  rw [importStmt_shape]
  rw [CssParser.importStmtAt]
  have hm1 : Rewrite.matchLitCI "@import".toList
      ('@' :: 'i' :: 'm' :: 'p' :: 'o' :: 'r' :: 't' :: ' ' :: 'u' :: 'r' ::
        'l' :: '(' :: URLModel.squote ::
        (u ++ URLModel.squote :: ')' :: ';' :: Z)) =
      some (' ' :: 'u' :: 'r' :: 'l' :: '(' :: URLModel.squote ::
        (u ++ URLModel.squote :: ')' :: ';' :: Z)) := rfl
  have hws : CssParser.importStmtWs
      (' ' :: 'u' :: 'r' :: 'l' :: '(' :: URLModel.squote ::
        (u ++ URLModel.squote :: ')' :: ';' :: Z)) = [' '] := rfl
  have hm2 : Rewrite.matchLitCI "url(".toList
      ('u' :: 'r' :: 'l' :: '(' :: URLModel.squote ::
        (u ++ URLModel.squote :: ')' :: ';' :: Z)) =
      some (URLModel.squote ::
        (u ++ URLModel.squote :: ')' :: ';' :: Z)) := rfl
  simp only [hm1, hws, List.isEmpty_cons, Bool.false_eq_true, if_false,
    List.length_cons, List.length_nil, List.drop_succ_cons, List.drop_zero,
    CssParser.importStmtBody, hm2, importTail_stmt hne hcl]
  have harith : 7 + 1 + (4 + (1 + u.length + 3)) = 16 + u.length := by omega
  rw [harith]

theorem findImportAux_stmt {u : List Char} (hne : u ≠ [])
    (hcl : ∀ c ∈ u, CssParser.importClassChar c = true) (Z : List Char) :
    ∀ (X : List Char) (pos : Nat), (∀ c ∈ X, c ≠ '@') →
    CssParser.findImportAux (X ++ (CssParser.importStmt u ++ Z)) pos =
      some (u, pos + X.length, 16 + u.length) := by
  intro X
  induction X with
  | nil =>
    intro pos _
    have hstmt : CssParser.importStmt u ++ Z =
        '@' :: ('i' :: 'm' :: 'p' :: 'o' :: 'r' :: 't' :: ' ' :: 'u' :: 'r' ::
          'l' :: '(' :: URLModel.squote ::
          (u ++ URLModel.squote :: ')' :: ';' :: Z)) := importStmt_shape u Z
    rw [List.nil_append, hstmt, CssParser.findImportAux, ← hstmt,
      importStmtAt_stmt hne hcl]
    simp
  | cons x X2 ih =>
    intro pos hX
    rw [List.cons_append, CssParser.findImportAux,
      importStmtAt_head_none (hX x (List.mem_cons_self x X2)),
      ih (pos + 1) (fun d hd => hX d (List.mem_cons_of_mem x hd))]
    simp
    omega

theorem findImportFrom_found {P u Z : List Char} {ri : Nat}
    (hP : CssParser.atFree P) (hne : u ≠ [])
    (hcl : ∀ c ∈ u, CssParser.importClassChar c = true)
    (hri : ri ≤ P.length) :
    CssParser.findImportFrom (P ++ (CssParser.importStmt u ++ Z)) ri =
      some (u, P.length, 16 + u.length) := by
  rw [CssParser.findImportFrom, List.drop_append_eq_append_drop,
    Nat.sub_eq_zero_of_le hri, List.drop_zero]
  rw [findImportAux_stmt hne hcl Z (P.drop ri) ri
    (fun c hc => hP c (List.drop_subset ri P hc))]
  simp [List.length_drop]
  omega

theorem findImportFrom_none_atFree {s : List Char} (hs : CssParser.atFree s)
    (ri : Nat) : CssParser.findImportFrom s ri = none := by
  rw [CssParser.findImportFrom]
  exact findImportAux_none _ ri (fun c hc => hs c (List.drop_subset ri s hc))

theorem findImportFrom_skip {P u Z : List Char} {ri : Nat}
    (hu : CssParser.atFree u) (hZ : CssParser.atFree Z)
    (hri : P.length < ri) :
    CssParser.findImportFrom (P ++ (CssParser.importStmt u ++ Z)) ri =
      none := by
  rw [CssParser.findImportFrom]
  have hT : CssParser.atFree
      ('i' :: 'm' :: 'p' :: 'o' :: 'r' :: 't' :: ' ' :: 'u' :: 'r' ::
        'l' :: '(' :: URLModel.squote ::
        (u ++ URLModel.squote :: ')' :: ';' :: Z)) := by
    intro c hc
    simp at hc
    rcases hc with rfl | rfl | rfl | rfl | rfl | rfl | rfl | rfl | rfl |
      rfl | rfl | rfl | hc
    · decide
    · decide
    · decide
    · decide
    · decide
    · decide
    · decide
    · decide
    · decide
    · decide
    · decide
    · decide
    · rcases hc with hc | rfl | rfl | rfl | hc2
      · exact hu c hc
      · decide
      · decide
      · decide
      · exact hZ c hc2
  have hsplit : P ++ (CssParser.importStmt u ++ Z) =
      (P ++ ['@']) ++
        ('i' :: 'm' :: 'p' :: 'o' :: 'r' :: 't' :: ' ' :: 'u' :: 'r' ::
          'l' :: '(' :: URLModel.squote ::
          (u ++ URLModel.squote :: ')' :: ';' :: Z)) := by
    rw [importStmt_shape]
    simp
  rw [hsplit, List.drop_append_eq_append_drop]
  have hP1 : (P ++ ['@']).drop ri = [] := by
    apply List.drop_eq_nil_of_le
    simp
    omega
  rw [hP1, List.nil_append]
  exact findImportAux_none _ _
    (fun c hc => hT c (List.drop_subset _ _ hc))

theorem splitAtLit_stmt {X Z u : List Char} (hX : CssParser.atFree X) :
    Rewrite.splitAtLit (CssParser.importStmt u)
      (X ++ (CssParser.importStmt u ++ Z)) = some (X, Z) := by
  induction X with
  | nil =>
    rw [List.nil_append, importStmt_shape, Rewrite.splitAtLit, ← importStmt_shape]
    have hpre : (CssParser.importStmt u).isPrefixOf
        (CssParser.importStmt u ++ Z) = true := by
      rw [List.isPrefixOf_iff_prefix]
      exact List.prefix_append _ _
    rw [hpre]
    simp [List.drop_left]
  | cons x X2 ih =>
    have hx := hX x (List.mem_cons_self x X2)
    rw [List.cons_append, Rewrite.splitAtLit]
    have hnp : (CssParser.importStmt u).isPrefixOf
        (x :: (X2 ++ (CssParser.importStmt u ++ Z))) = false := by
      have hstmt : CssParser.importStmt u =
          '@' :: ('i' :: 'm' :: 'p' :: 'o' :: 'r' :: 't' :: ' ' :: 'u' ::
            'r' :: 'l' :: '(' :: URLModel.squote ::
            (u ++ URLModel.squote :: ')' :: ';' :: [])) := by
        have := importStmt_shape u []
        simpa using this
      rw [hstmt, List.isPrefixOf]
      have : (('@' : Char) == x) = false := by
        simp
        intro h
        exact hx h.symm
      simp [this]
    rw [hnp]
    simp only [Bool.false_eq_true, if_false]
    rw [ih (fun d hd => hX d (List.mem_cons_of_mem x hd))]

theorem replaceFirst_stmt {X Z u : List Char} (rep : List Char)
    (hX : CssParser.atFree X) :
    Rewrite.replaceFirst (X ++ (CssParser.importStmt u ++ Z))
      (CssParser.importStmt u) rep = X ++ (rep ++ Z) := by
  rw [Rewrite.replaceFirst, splitAtLit_stmt hX]
  dsimp only
  rw [List.append_assoc]

theorem stmt_extract {P Z u : List Char} :
    ((P ++ (CssParser.importStmt u ++ Z)).drop P.length).take
      (16 + u.length) = CssParser.importStmt u := by
  rw [List.drop_left, ← importStmt_length u, List.take_left]

theorem chain_master : ∀ (levels : List CssParser.ChainLevel)
    (L : List Char) (F : List Char → Option (List Char)),
    CssParser.levelsOK levels → CssParser.envOK F levels L →
    CssParser.atFree L → L ≠ [] →
    ((∀ (base X Y : List Char) (ri : Nat), CssParser.atFree X →
        CssParser.atFree Y →
        ri ≤ X.length + CssParser.headPre levels →
        ∃ n, ∀ g, n ≤ g →
          CssParser.inlineImportsLoop F g
              (X ++ (CssParser.chainCss levels L ++ Y)) base ri =
            some (X ++ (CssParser.inlined levels L ++ Y), 0)) ∧
      (∀ (base : List Char) (ri : Nat), ∃ n, ∀ g, n ≤ g →
        ∃ V, CssParser.inlineImports F g (CssParser.chainCss levels L)
              base ri = some (V, 0) ∧
          (V = CssParser.inlined levels L ∨
            V = CssParser.chainCss levels L))) := by
  intro levels
  induction levels with
  | nil =>
    intro L F hOK henv hatL hLne
    have hc0 : CssParser.chainCss [] L = L := rfl
    have hi0 : CssParser.inlined [] L = L := rfl
    constructor
    · intro base X Y ri hX hY hri
      refine ⟨1, fun g hg => ?_⟩
      obtain ⟨g2, rfl⟩ : ∃ g2, g = g2 + 1 := ⟨g - 1, by omega⟩
      rw [hc0, hi0, CssParser.inlineImportsLoop,
        findImportFrom_none_atFree
          (atFree_append hX (atFree_append hatL hY)) ri]
    · intro base ri
      refine ⟨1, fun g hg => ?_⟩
      obtain ⟨g2, rfl⟩ : ∃ g2, g = g2 + 1 := ⟨g - 1, by omega⟩
      refine ⟨L, ?_, Or.inl rfl⟩
      have hne : L.isEmpty = false := by
        cases L with
        | nil => exact absurd rfl hLne
        | cons a b => rfl
      rw [hc0, CssParser.inlineImports, if_neg (by simp [hne]),
        CssParser.inlineImportsLoop, findImportFrom_none_atFree hatL ri]
  | cons lv rest ih =>
    intro L F hOK henv hatL hLne
    obtain ⟨hlv, hrest⟩ := hOK
    obtain ⟨hF, henv2⟩ := henv
    obtain ⟨hpre, hpost, hune, huat, hucl, hures⟩ := hlv
    have ihful := ih L F hrest henv2 hatL hLne
    have ihL := ihful.1
    have ihW := ihful.2
    have hLoop : ∀ (base X Y : List Char) (ri : Nat), CssParser.atFree X →
        CssParser.atFree Y → ri ≤ X.length + lv.pre.length →
        ∃ n, ∀ g, n ≤ g →
          CssParser.inlineImportsLoop F g
              (X ++ (CssParser.chainCss (lv :: rest) L ++ Y)) base ri =
            some (X ++ (CssParser.inlined (lv :: rest) L ++ Y), 0) := by
      intro base X Y ri hX hY hri
      have hcss : X ++ (CssParser.chainCss (lv :: rest) L ++ Y) =
          (X ++ lv.pre) ++
            (CssParser.importStmt lv.url ++ (lv.post ++ Y)) := by
        simp [CssParser.chainCss, List.append_assoc]
      obtain ⟨n1, hn1⟩ := ihW lv.abs
        ((X ++ lv.pre).length + (16 + lv.url.length))
      obtain ⟨n2, hn2⟩ := ihL base (X ++ lv.pre) (lv.post ++ Y) 0
        (atFree_append hX hpre) (atFree_append hpost hY) (Nat.zero_le _)
      refine ⟨n1 + n2 + 2, fun g hg => ?_⟩
      obtain ⟨g2, rfl⟩ : ∃ g2, g = g2 + 1 := ⟨g - 1, by omega⟩
      have hg2a : n1 ≤ g2 := by omega
      have hg2b : n2 ≤ g2 := by omega
      rw [hcss, CssParser.inlineImportsLoop]
      rw [findImportFrom_found (atFree_append hX hpre) hune hucl
        (by simp [List.length_append]; omega)]
      dsimp only
      rw [safeResolve_abs hures base, hF]
      dsimp only
      have hwrap : (if (CssParser.chainCss rest L).isEmpty = true
          then some (CssParser.chainCss rest L,
            (X ++ lv.pre).length + (16 + lv.url.length))
          else CssParser.inlineImportsLoop F g2 (CssParser.chainCss rest L)
            lv.abs ((X ++ lv.pre).length + (16 + lv.url.length))) =
          CssParser.inlineImports F g2 (CssParser.chainCss rest L) lv.abs
            ((X ++ lv.pre).length + (16 + lv.url.length)) := rfl
      rw [hwrap]
      obtain ⟨V, hVeq, hVor⟩ := hn1 g2 hg2a
      rw [hVeq]
      dsimp only
      rw [stmt_extract, replaceFirst_stmt V (atFree_append hX hpre)]
      rcases hVor with hV | hV
      · rw [hV]
        obtain ⟨g3, rfl⟩ : ∃ g3, g2 = g3 + 1 := ⟨g2 - 1, by omega⟩
        rw [CssParser.inlineImportsLoop,
          findImportFrom_none_atFree
            (atFree_append (atFree_append hX hpre)
              (atFree_append (inlined_atFree rest L hrest hatL)
                (atFree_append hpost hY))) 0]
        have heq : (X ++ lv.pre) ++
            (CssParser.inlined rest L ++ (lv.post ++ Y)) =
            X ++ (CssParser.inlined (lv :: rest) L ++ Y) := by
          simp [CssParser.inlined, List.append_assoc]
        rw [heq]
      · rw [hV]
        rw [hn2 g2 hg2b]
        have heq : (X ++ lv.pre) ++
            (CssParser.inlined rest L ++ (lv.post ++ Y)) =
            X ++ (CssParser.inlined (lv :: rest) L ++ Y) := by
          simp [CssParser.inlined, List.append_assoc]
        rw [heq]
    refine ⟨hLoop, ?_⟩
    intro base ri
    have hnonempty : ¬((CssParser.chainCss (lv :: rest) L).isEmpty = true) := by
      simp only [List.isEmpty_iff]
      exact chainCss_ne_nil (lv :: rest) L hLne
    by_cases hri : ri ≤ lv.pre.length
    · obtain ⟨n, hn⟩ := hLoop base [] [] ri (fun c hc => absurd hc
        (List.not_mem_nil c)) (fun c hc => absurd hc (List.not_mem_nil c))
        (by simp [hri])
      refine ⟨n, fun g hg => ?_⟩
      refine ⟨CssParser.inlined (lv :: rest) L, ?_, Or.inl rfl⟩
      have h1 := hn g hg
      rw [List.nil_append, List.append_nil, List.nil_append,
        List.append_nil] at h1
      rw [CssParser.inlineImports, if_neg hnonempty]
      exact h1
    · refine ⟨1, fun g hg => ?_⟩
      obtain ⟨g2, rfl⟩ : ∃ g2, g = g2 + 1 := ⟨g - 1, by omega⟩
      refine ⟨CssParser.chainCss (lv :: rest) L, ?_, Or.inr rfl⟩
      have hchain : CssParser.chainCss (lv :: rest) L =
          lv.pre ++ (CssParser.importStmt lv.url ++ lv.post) := rfl
      rw [CssParser.inlineImports, if_neg hnonempty, hchain,
        CssParser.inlineImportsLoop,
        findImportFrom_skip huat hpost (by omega)]

/-- C8 (confirmed): the recursive `@import` inlining of part_000
terminates on every non-cyclic import chain and substitutes each import
statement with the fetched, recursively inlined content.  A chain is a
list of levels `pre ++ @import url(\x27u\x27); ++ post` whose absolute URL
fetches the next level, ending in a leaf body; hygiene asks the
surrounding text to host no other `@` (hence no other match) and the
URLs to be absolute and inside the regex\x27s character class.  Some fuel
bound makes the fuel-indexed interpreter return the fully inlined css
(with the shared regex state reset to 0), and every larger fuel returns
the same, which is termination of the unbounded JS recursion. -/
theorem css_import_chain_terminates
    (levels : List CssParser.ChainLevel) (L : List Char)
    (F : List Char → Option (List Char)) (base : List Char)
    (hlv : CssParser.levelsOK levels) (henv : CssParser.envOK F levels L)
    (hL : CssParser.atFree L) (hLne : L ≠ []) :
    ∃ n, ∀ g, n ≤ g →
      CssParser.inlineImports F g (CssParser.chainCss levels L) base 0 =
        some (CssParser.inlined levels L, 0) := by
  obtain ⟨hLoop, _⟩ := chain_master levels L F hlv henv hL hLne
  obtain ⟨n, hn⟩ := hLoop base [] [] 0
    (fun c hc => absurd hc (List.not_mem_nil c))
    (fun c hc => absurd hc (List.not_mem_nil c)) (Nat.zero_le _)
  refine ⟨n, fun g hg => ?_⟩
  have h1 := hn g hg
  simp only [List.nil_append, List.append_nil] at h1
  rw [CssParser.inlineImports,
    if_neg (by simp only [List.isEmpty_iff]
               exact chainCss_ne_nil levels L hLne)]
  exact h1

/-- Witness for C8 at a concrete depth-3 chain
`p0 / one.css → p1 / two.css → p2 / three.css → leaf`. -/
theorem css_import_chain_terminates_witness :
    ∃ n, ∀ g, n ≤ g →
      CssParser.inlineImports
          (fun a =>
            if a = "https://a.test/one.css".toList then
              some (CssParser.chainCss
                [⟨"p1 ".toList, "https://a.test/two.css".toList,
            "https://a.test/two.css".toList, " s1".toList⟩, ⟨"p2 ".toList, "https://a.test/three.css".toList,
            "https://a.test/three.css".toList, " s2".toList⟩] "leaf".toList)
            else if a = "https://a.test/two.css".toList then
              some (CssParser.chainCss [⟨"p2 ".toList, "https://a.test/three.css".toList,
            "https://a.test/three.css".toList, " s2".toList⟩] "leaf".toList)
            else if a = "https://a.test/three.css".toList then
              some "leaf".toList
            else none)
          g
          (CssParser.chainCss [⟨"p0 ".toList, "https://a.test/one.css".toList,
            "https://a.test/one.css".toList, " s0".toList⟩, ⟨"p1 ".toList, "https://a.test/two.css".toList,
            "https://a.test/two.css".toList, " s1".toList⟩, ⟨"p2 ".toList, "https://a.test/three.css".toList,
            "https://a.test/three.css".toList, " s2".toList⟩] "leaf".toList)
          "https://base.test/".toList 0 =
        some (CssParser.inlined [⟨"p0 ".toList, "https://a.test/one.css".toList,
            "https://a.test/one.css".toList, " s0".toList⟩, ⟨"p1 ".toList, "https://a.test/two.css".toList,
            "https://a.test/two.css".toList, " s1".toList⟩, ⟨"p2 ".toList, "https://a.test/three.css".toList,
            "https://a.test/three.css".toList, " s2".toList⟩] "leaf".toList, 0) :=
  css_import_chain_terminates [⟨"p0 ".toList, "https://a.test/one.css".toList,
            "https://a.test/one.css".toList, " s0".toList⟩, ⟨"p1 ".toList, "https://a.test/two.css".toList,
            "https://a.test/two.css".toList, " s1".toList⟩, ⟨"p2 ".toList, "https://a.test/three.css".toList,
            "https://a.test/three.css".toList, " s2".toList⟩] "leaf".toList
    (fun a =>
      if a = "https://a.test/one.css".toList then
        some (CssParser.chainCss [⟨"p1 ".toList, "https://a.test/two.css".toList,
            "https://a.test/two.css".toList, " s1".toList⟩, ⟨"p2 ".toList, "https://a.test/three.css".toList,
            "https://a.test/three.css".toList, " s2".toList⟩] "leaf".toList)
      else if a = "https://a.test/two.css".toList then
        some (CssParser.chainCss [⟨"p2 ".toList, "https://a.test/three.css".toList,
            "https://a.test/three.css".toList, " s2".toList⟩] "leaf".toList)
      else if a = "https://a.test/three.css".toList then
        some "leaf".toList
      else none)
    "https://base.test/".toList (by decide) (by decide) (by decide)
    (by decide)

end Unblocker
